import Mathlib

/-!
# kgraphviz: DOT document model and renderer front end

A shallow embedding of `include/kgraphviz/graph.hpp` and
`include/kgraphviz/detail/render.hpp`.

* A `std::string` is a list of characters (`Str`); one C++ `char` is one `Char`.
* `std::ostringstream << x` is list append.
* `std::map<std::string, std::string>` is an association list kept in ascending
  key order by `AttrMap.set` (the embedding of `operator[]` followed by assignment).
* Exceptions are values of `Error`, fallible functions return `Except Error _`.
* The process executor, the search for the engine and the file system are fields of `Host`;
  a render entry point returns the command lines it executed next to its result.
-/

namespace kgraphviz

/-- Contents of a `std::string`. -/
abbrev Str := List Char

/-- The double quote character. -/
def dquote : Char := Char.ofNat 34

/-- The backslash character. -/
def backslash : Char := Char.ofNat 92

/-- The function `std::isalnum` of the C library in the "C" locale: decimal digits and the
    upper and lower case ASCII letters. -/
def isalnum (ch : Char) : Bool :=
  (48 ≤ ch.toNat && ch.toNat ≤ 57) || (65 ≤ ch.toNat && ch.toNat ≤ 90) ||
    (97 ≤ ch.toNat && ch.toNat ≤ 122)

/-- The first loop of `escape_id`: true when some character takes the `goto need_escape`. -/
def need_escape : Str → Bool
  | [] => false
  | ch :: rest => if !isalnum ch && ch != '_' then true else need_escape rest

/-- The second loop of `escape_id`: the stream contents after each character was written,
    a double quote being written as backslash, double quote. -/
def escape_loop (oss : Str) : Str → Str
  | [] => oss
  | ch :: rest =>
    if ch == dquote then escape_loop (oss ++ [backslash, dquote]) rest
    else escape_loop (oss ++ [ch]) rest

/-- The function `BaseGraph::escape_id`. -/
def escape_id (id : Str) : Str :=
  if id.isEmpty then [dquote, dquote]
  else if need_escape id then escape_loop [dquote] id ++ [dquote]
  else id

/-- What the specification calls an identifier character: an ASCII letter, a digit or an
    underscore. -/
def isIdentChar (c : Char) : Bool := c.isAlpha || c.isDigit || c == '_'

/-- The specification's quoted form: every double quote replaced by backslash, double quote,
    every other character unchanged, the whole between double quotes. -/
def quoted (id : Str) : Str :=
  [dquote] ++ id.flatMap (fun c => if c = dquote then [backslash, dquote] else [c]) ++ [dquote]

/-- Comparison of two `std::string` values with `operator<`: lexicographic on the character
    codes, a proper prefix being smaller. -/
def str_lt : Str → Str → Bool
  | _, [] => false
  | [], _ :: _ => true
  | a :: as, b :: bs => if a.toNat < b.toNat then true else if b.toNat < a.toNat then false
    else str_lt as bs

/-- Contents of a `std::map<std::string, std::string>` in iteration order (ascending keys). -/
abbrev AttrMap := List (Str × Str)

/-- The assignment `m[key] = value` on a `std::map`: the entry whose key is equivalent to `key`
    gets the value, or a new entry is inserted at its place in key order. -/
def AttrMap.set : AttrMap → Str → Str → AttrMap
  | [], key, value => [(key, value)]
  | (k, v) :: rest, key, value =>
    if str_lt key k then (key, value) :: (k, v) :: rest
    else if str_lt k key then (k, v) :: AttrMap.set rest key value
    else (k, value) :: rest

/-- Lookup of a key in a map, by key equivalence as `std::map::find` does. -/
def AttrMap.find : AttrMap → Str → Option Str
  | [], _ => none
  | (k, v) :: rest, key =>
    if !str_lt key k && !str_lt k key then some v else AttrMap.find rest key

/-- The loop of `format_attrs`; `first` is the flag of the same name. -/
def format_attrs_loop (oss : Str) (first : Bool) : AttrMap → Str
  | [] => oss
  | kv :: rest =>
    let oss1 := if !first then oss ++ ", ".toList else oss
    format_attrs_loop (oss1 ++ escape_id kv.1 ++ "=".toList ++ escape_id kv.2) false rest

/-- The function `BaseGraph::format_attrs`. -/
def format_attrs (attrs : AttrMap) : Str := format_attrs_loop [] true attrs

mutual
/-- The struct `BaseGraph::Statement`, one constructor per value of `Type` with the fields that
    the matching `make_` function fills. The `std::shared_ptr<BaseGraph>` of a subgraph statement
    is represented by the graph it points to: no member function writes through it. The
    namespace `Mem` below keeps the pointer as an address, and `Mem.to_string_value` relates the
    two. -/
inductive Statement where
  | RawLine (raw : Str)
  | Node (node_name : Str) (node_attrs : AttrMap)
  | Edge (tail head : Str) (edge_attrs : AttrMap)
  | Subgraph (subgraph : BaseGraph)
/-- The data members of `BaseGraph`. -/
inductive BaseGraph where
  | mk (graph_name_ : Str) (strict_ directed_ : Bool) (comment_ : Str)
      (graph_attr_ node_attr_ edge_attr_ : AttrMap) (statements_ : List Statement)
end

namespace BaseGraph

/-- Member `graph_name_`. -/
def graph_name_ : BaseGraph → Str
  | mk n _ _ _ _ _ _ _ => n

/-- Member `strict_`. -/
def strict_ : BaseGraph → Bool
  | mk _ s _ _ _ _ _ _ => s

/-- Member `directed_`. -/
def directed_ : BaseGraph → Bool
  | mk _ _ d _ _ _ _ _ => d

/-- Member `comment_`. -/
def comment_ : BaseGraph → Str
  | mk _ _ _ c _ _ _ _ => c

/-- Member `graph_attr_`. -/
def graph_attr_ : BaseGraph → AttrMap
  | mk _ _ _ _ ga _ _ _ => ga

/-- Member `node_attr_`. -/
def node_attr_ : BaseGraph → AttrMap
  | mk _ _ _ _ _ na _ _ => na

/-- Member `edge_attr_`. -/
def edge_attr_ : BaseGraph → AttrMap
  | mk _ _ _ _ _ _ ea _ => ea

/-- Member `statements_`. -/
def statements_ : BaseGraph → List Statement
  | mk _ _ _ _ _ _ _ st => st

/-- The constructor `BaseGraph(name, strict, directed)`. -/
def new (name : Str) (strict directed : Bool) : BaseGraph :=
  mk name strict directed [] [] [] [] []

end BaseGraph

/-- The function `BaseGraph::edge_op`, as a function of the member `directed_`. -/
def edge_op (directed_ : Bool) : Str := if directed_ then "->".toList else "--".toList

/-- The constructor `Graph(name, strict)`. -/
def Graph (name : Str) (strict : Bool) : BaseGraph := BaseGraph.new name strict false

/-- The constructor `DiGraph(name, strict)`. -/
def DiGraph (name : Str) (strict : Bool) : BaseGraph := BaseGraph.new name strict true

/-- The string `std::string(indent_level * 4, ' ')`. -/
def indent (indent_level : Nat) : Str := List.replicate (indent_level * 4) ' '

/-- The optional bracketed attribute list of a node or edge statement. -/
def attr_suffix (attrs : AttrMap) : Str :=
  if !attrs.isEmpty then " [".toList ++ format_attrs attrs ++ "]".toList else []

/-- One default-attribute block of `BaseGraph::to_string`, written when the map is not empty. -/
def attr_block (ind : Str) (kw : Str) (attrs : AttrMap) : Str :=
  if !attrs.isEmpty then ind ++ "    ".toList ++ kw ++ " [".toList ++ format_attrs attrs ++ "];\n".toList
  else []

/-- The first line of `BaseGraph::to_string` after the comment, as a function of the members
    it reads: the top-level header at indent level 0, the subgraph header otherwise. -/
def header (strict_ directed_ : Bool) (graph_name_ : Str) (indent_level : Nat) : Str :=
  if indent_level = 0 then
    (if strict_ then "strict ".toList else []) ++
      (if directed_ then "digraph ".toList else "graph ".toList) ++
      escape_id graph_name_ ++ " \x7b\n".toList
  else
    indent indent_level ++ "subgraph ".toList ++ escape_id ("cluster_".toList ++ graph_name_) ++
      " \x7b\n".toList

/-- The comment line of `BaseGraph::to_string`, as a function of the member `comment_`. -/
def comment_line (comment_ : Str) (indent_level : Nat) : Str :=
  if !comment_.isEmpty && indent_level = 0 then "// ".toList ++ comment_ ++ "\n".toList else []

mutual
/-- The function `BaseGraph::Statement::to_string`. -/
def Statement.to_string : Statement → BaseGraph → Nat → Str
  | .RawLine raw, _, indent_level => indent indent_level ++ raw ++ "\n".toList
  | .Node node_name node_attrs, _, indent_level =>
    indent indent_level ++ escape_id node_name ++ attr_suffix node_attrs ++ ";\n".toList
  | .Edge tail head edge_attrs, owner, indent_level =>
    indent indent_level ++ escape_id tail ++ " ".toList ++ edge_op owner.directed_ ++
      " ".toList ++ escape_id head ++ attr_suffix edge_attrs ++ ";\n".toList
  | .Subgraph subgraph, _, indent_level => BaseGraph.to_string subgraph indent_level
/-- The function `BaseGraph::to_string`. -/
def BaseGraph.to_string : BaseGraph → Nat → Str
  | .mk graph_name_ strict_ directed_ comment_ graph_attr_ node_attr_ edge_attr_ statements_,
      indent_level =>
    let g := BaseGraph.mk graph_name_ strict_ directed_ comment_ graph_attr_ node_attr_ edge_attr_
      statements_
    comment_line comment_ indent_level ++ header strict_ directed_ graph_name_ indent_level ++
      attr_block (indent indent_level) "graph".toList graph_attr_ ++
      attr_block (indent indent_level) "node".toList node_attr_ ++
      attr_block (indent indent_level) "edge".toList edge_attr_ ++
      statements_to_string statements_ g (indent_level + 1) ++
      indent indent_level ++ "\x7d\n".toList
/-- The loop over `statements_` in `BaseGraph::to_string`. -/
def statements_to_string : List Statement → BaseGraph → Nat → Str
  | [], _, _ => []
  | stmt :: rest, owner, indent_level =>
    Statement.to_string stmt owner indent_level ++ statements_to_string rest owner indent_level
end

namespace BaseGraph

/-- The function `BaseGraph::set_graph_attr`. -/
def set_graph_attr : BaseGraph → Str → Str → BaseGraph
  | mk n s d c ga na ea st, key, value => mk n s d c (ga.set key value) na ea st

/-- The function `BaseGraph::set_node_attr`. -/
def set_node_attr : BaseGraph → Str → Str → BaseGraph
  | mk n s d c ga na ea st, key, value => mk n s d c ga (na.set key value) ea st

/-- The function `BaseGraph::set_edge_attr`. -/
def set_edge_attr : BaseGraph → Str → Str → BaseGraph
  | mk n s d c ga na ea st, key, value => mk n s d c ga na (ea.set key value) st

/-- The function `BaseGraph::set_comment`. -/
def set_comment : BaseGraph → Str → BaseGraph
  | mk n s d _ ga na ea st, comment => mk n s d comment ga na ea st

/-- The call `statements_.push_back(stmt)`. -/
def push_back : BaseGraph → Statement → BaseGraph
  | mk n s d c ga na ea st, stmt => mk n s d c ga na ea (st ++ [stmt])

/-- The map `merged` of `BaseGraph::node`. -/
def merged (label : Str) (attrs : AttrMap) : AttrMap :=
  if !label.isEmpty then attrs.set "label".toList label else attrs

/-- The function `BaseGraph::node`. -/
def node (g : BaseGraph) (name label : Str) (attrs : AttrMap) : BaseGraph :=
  g.push_back (Statement.Node name (merged label attrs))

/-- The function `BaseGraph::edge`. -/
def edge (g : BaseGraph) (tail head : Str) (attrs : AttrMap) : BaseGraph :=
  g.push_back (Statement.Edge tail head attrs)

/-- The function `BaseGraph::edges`. -/
def edges : BaseGraph → List (Str × Str) → AttrMap → BaseGraph
  | g, [], _ => g
  | g, p :: pairs, attrs => edges (g.edge p.1 p.2 attrs) pairs attrs

/-- The function `BaseGraph::subgraph`: a copy of `sub` is pushed. -/
def subgraph (g : BaseGraph) (sub : BaseGraph) : BaseGraph :=
  g.push_back (Statement.Subgraph sub)

end BaseGraph

mutual
/-- The statement with the `strict_` flag of every graph inside it cleared. -/
def Statement.clear_strict : Statement → Statement
  | .RawLine raw => .RawLine raw
  | .Node node_name node_attrs => .Node node_name node_attrs
  | .Edge tail head edge_attrs => .Edge tail head edge_attrs
  | .Subgraph subgraph => .Subgraph (BaseGraph.clear_strict subgraph)
/-- The graph with its `strict_` flag and that of every nested subgraph cleared. -/
def BaseGraph.clear_strict : BaseGraph → BaseGraph
  | .mk n _ d c ga na ea st => .mk n false d c ga na ea (clear_strict_list st)
/-- The statements with every `strict_` flag inside them cleared. -/
def clear_strict_list : List Statement → List Statement
  | [] => []
  | stmt :: rest => Statement.clear_strict stmt :: clear_strict_list rest
end

/-- The specification's text of an edge statement at an indent level: the escaped tail, the
    operator chosen by `directed`, the escaped head, the optional attribute list. -/
def edge_text (directed : Bool) (indent_level : Nat) (tail head : Str) (attrs : AttrMap) : Str :=
  indent indent_level ++ escape_id tail ++
    (if directed then " -> ".toList else " -- ".toList) ++ escape_id head ++
    (if attrs = [] then [] else " [".toList ++ format_attrs attrs ++ "]".toList) ++ ";\n".toList

/-- The invariant of a `std::map`: the keys are strictly ascending in iteration order. -/
def AttrMap.sorted (m : AttrMap) : Prop := m.Pairwise (fun a b => str_lt a.1 b.1 = true)

/-! ### Renderer (`detail/render.hpp`, `options.hpp`, `exceptions.hpp`) -/

/-- The struct `RenderOptions` with its default member initializers. -/
structure RenderOptions where
  engine : Str := "dot".toList
  format : Str := []
  renderer : Str := []
  formatter : Str := []
  neato_no_op : Bool := false
  quiet : Bool := false
  raise_if_result_exists : Bool := false
  overwrite_filepath : Bool := false

/-- The function `RenderOptions::set_format`. -/
def RenderOptions.set_format (options : RenderOptions) (fmt : Str) : RenderOptions :=
  { options with format := fmt }

/-- The exception classes of `exceptions.hpp` that the renderer throws, with the constructor
    arguments they are built from. -/
inductive Error where
  | ExecutableNotFound (msg : Str)
  | CalledProcessError (returncode : Int) (command stdout_output stderr_output : Str)
  | RequiredArgumentError (arg_name : Str)
  | FileExistsError (filepath : Str)
  deriving DecidableEq

/-- What `run_command_sink` hands back: the exit code and the contents of the two sinks. -/
structure ProcessResult where
  exit_code : Int
  stdout_output : Str
  stderr_output : Str

/-- The host the renderer runs on, as far as the renderer observes it: whether
    `is_executable_available` finds an executable (the result of its `command -v` test, which
    is not a run of the engine), whether a `std::ifstream` opened on a path is `good()`, and
    what `run_command_sink` returns for a command line and optional standard input. -/
structure Host where
  is_executable_available : Str → Bool
  file_good : Str → Bool
  run_command_sink : Str → Option Str → ProcessResult

/-- The result of a render entry point: the command lines handed to `run_command_sink`, each
    with the standard input given, and the value returned or the exception thrown. -/
structure Outcome (α : Type) where
  executed : List (Str × Option Str)
  result : Except Error α

/-- The function `Renderer::validate_options`. -/
def validate_options (host : Host) (options : RenderOptions) (input_file output_file : Str) :
    Except Error Unit :=
  if !options.formatter.isEmpty && options.renderer.isEmpty then
    .error (.RequiredArgumentError "renderer (required by formatter)".toList)
  else if !host.is_executable_available options.engine then
    .error (.ExecutableNotFound options.engine)
  else if input_file == output_file && input_file != [] && !options.overwrite_filepath then
    .error (.RequiredArgumentError
      "overwrite_filepath=true required when input_file == output_file".toList)
  else if options.raise_if_result_exists && host.file_good output_file then
    .error (.FileExistsError output_file)
  else .ok ()

/-- The function `Renderer::build_command`; the stream is returned as its contents. -/
def build_command (input_file output_file : Str) (options : RenderOptions) (to_stdout : Bool)
    (use_stdin : Bool) : Except Error Str :=
  let cmd0 := options.engine
  if options.format.isEmpty then .error (.RequiredArgumentError "format".toList)
  else
    let cmd1 := cmd0 ++ " -T".toList ++ options.format
    let cmd2 :=
      if !options.renderer.isEmpty then
        let c := cmd1 ++ ":".toList ++ options.renderer
        if !options.formatter.isEmpty then c ++ ":".toList ++ options.formatter else c
      else cmd1
    let cmd3 := if options.neato_no_op then cmd2 ++ " -n".toList else cmd2
    let cmd4 := if !use_stdin then cmd3 ++ " \"".toList ++ input_file ++ "\"".toList else cmd3
    let cmd5 :=
      if to_stdout then cmd4
      else if !output_file.isEmpty then cmd4 ++ " -o \"".toList ++ output_file ++ "\"".toList
      else cmd4
    .ok cmd5

/-- The call `filename.rfind(c)` of the standard library: the highest position of `c`, or
    `none` for `npos`. -/
def rfind : Str → Char → Option Nat
  | [], _ => none
  | x :: rest, c =>
    match rfind rest c with
    | some pos => some (pos + 1)
    | none => if x = c then some 0 else none

/-- The function `Renderer::get_format_from_filename`. -/
def get_format_from_filename (filename : Str) : Str :=
  match rfind filename '.' with
  | some pos => if pos + 1 < filename.length then filename.drop (pos + 1) else []
  | none => []

/-- The function `Renderer::deduce_format`; the options are passed by reference, so the
    options after the call are returned with the format. -/
def deduce_format (filename : Str) (options : RenderOptions) :
    Except Error (Str × RenderOptions) :=
  let fmt := options.format
  if fmt.isEmpty then
    let fmt1 := get_format_from_filename filename
    if fmt1.isEmpty then
      .error (.RequiredArgumentError
        "format must be set either via options or output filename".toList)
    else .ok (fmt1, options.set_format fmt1)
  else .ok (fmt, options)

/-- The function `Renderer::render`. -/
def render (host : Host) (input_file output_file : Str) (options : RenderOptions) :
    Outcome Unit :=
  match validate_options host options input_file output_file with
  | .error e => ⟨[], .error e⟩
  | .ok () =>
    match deduce_format output_file options with
    | .error e => ⟨[], .error e⟩
    | .ok (_, options1) =>
      match build_command input_file output_file options1 false false with
      | .error e => ⟨[], .error e⟩
      | .ok full_cmd =>
        let r := host.run_command_sink full_cmd none
        if r.exit_code ≠ 0 then
          ⟨[(full_cmd, none)], .error (.CalledProcessError r.exit_code full_cmd r.stdout_output
            (if options1.quiet then [] else r.stderr_output))⟩
        else ⟨[(full_cmd, none)], .ok ()⟩

/-- The function `Renderer::render_to_memory`. -/
def render_to_memory (host : Host) (input_file : Str) (options : RenderOptions) :
    Outcome Str :=
  match validate_options host options input_file [] with
  | .error e => ⟨[], .error e⟩
  | .ok () =>
    match build_command input_file [] options true false with
    | .error e => ⟨[], .error e⟩
    | .ok full_cmd =>
      let r := host.run_command_sink full_cmd none
      if r.exit_code ≠ 0 then
        ⟨[(full_cmd, none)], .error (.CalledProcessError r.exit_code full_cmd "<ignored>".toList
          (if options.quiet then [] else r.stderr_output))⟩
      else ⟨[(full_cmd, none)], .ok r.stdout_output⟩

/-- The function `Renderer::render_from_string`. -/
def render_from_string (host : Host) (dot_source output_file : Str) (options : RenderOptions) :
    Outcome Unit :=
  match validate_options host options [] output_file with
  | .error e => ⟨[], .error e⟩
  | .ok () =>
    if output_file.isEmpty then
      ⟨[], .error (.RequiredArgumentError "output_file (required)".toList)⟩
    else
      match deduce_format output_file options with
      | .error e => ⟨[], .error e⟩
      | .ok (_, options1) =>
        match build_command [] output_file options1 false true with
        | .error e => ⟨[], .error e⟩
        | .ok cmd =>
          let r := host.run_command_sink cmd (some dot_source)
          if r.exit_code ≠ 0 then
            ⟨[(cmd, some dot_source)], .error (.CalledProcessError r.exit_code cmd
              "<ignored>".toList (if options1.quiet then [] else r.stderr_output))⟩
          else ⟨[(cmd, some dot_source)], .ok ()⟩

/-- The function `Renderer::render_from_string_to_memory`. -/
def render_from_string_to_memory (host : Host) (dot_source : Str) (options : RenderOptions) :
    Outcome Str :=
  match validate_options host options [] [] with
  | .error e => ⟨[], .error e⟩
  | .ok () =>
    match build_command [] [] options true true with
    | .error e => ⟨[], .error e⟩
    | .ok cmd =>
      let r := host.run_command_sink cmd (some dot_source)
      if r.exit_code ≠ 0 then
        ⟨[(cmd, some dot_source)], .error (.CalledProcessError r.exit_code cmd
          "<ignored>".toList (if options.quiet then [] else r.stderr_output))⟩
      else ⟨[(cmd, some dot_source)], .ok r.stdout_output⟩

/-- The specification's command line after the format token, `with_o` telling whether the `-o`
    part is present: `[:<renderer>[:<formatter>]] [-n] ["<input_file>"] [-o "<output_file>"]`. -/
def after_format (options : RenderOptions) (input_file output_file : Str) (use_stdin : Bool)
    (with_o : Bool) : Str :=
  (if options.renderer ≠ [] then
      ":".toList ++ options.renderer ++
        (if options.formatter ≠ [] then ":".toList ++ options.formatter else [])
     else []) ++
    (if options.neato_no_op then " -n".toList else []) ++
    (if use_stdin then [] else " \"".toList ++ input_file ++ "\"".toList) ++
    (if with_o then " -o \"".toList ++ output_file ++ "\"".toList else [])

/-- The specification's command line: `<engine> -T<format>` and what comes after the format. -/
def command_line (options : RenderOptions) (input_file output_file : Str) (use_stdin : Bool)
    (with_o : Bool) : Str :=
  options.engine ++ " -T".toList ++ options.format ++
    after_format options input_file output_file use_stdin with_o

/-- A path string with no text after a last dot: the string as a whole, directory parts
    included, has no dot, or its last character is a dot. A path such as `./out`, whose only dot
    lies in a directory part, is not of this kind. -/
def no_text_after_last_dot (path : Str) : Prop :=
  '.' ∉ path ∨ ∃ front : Str, path = front ++ ['.']

/-- A host on which every engine is found, no file exists and every command exits with 0. -/
def host_with_engine : Host := ⟨fun _ => true, fun _ => false, fun _ _ => ⟨0, [], []⟩⟩

/-- A host on which no engine is found. -/
def host_without_engine : Host := ⟨fun _ => false, fun _ => false, fun _ _ => ⟨0, [], []⟩⟩

/-- A host on which every engine is found and every path names an existing file. -/
def host_with_files : Host := ⟨fun _ => true, fun _ => true, fun _ _ => ⟨0, [], []⟩⟩

/-! ### Objects in memory

The same classes with the `std::shared_ptr<BaseGraph>` of a subgraph statement kept as an
address. The `BaseGraph` objects of the caller and the objects that `subgraph` creates with
`std::make_shared` are held apart: `Statement` is a private type and `statements_` a protected
member, so a caller has no way to a pointer stored in a statement, and the only pointers stored
are those that `subgraph` creates. -/

namespace Mem

/-- The struct `BaseGraph::Statement`; `subgraph` is the address held by the shared pointer. -/
inductive Statement where
  | RawLine (raw : Str)
  | Node (node_name : Str) (node_attrs : AttrMap)
  | Edge (tail head : Str) (edge_attrs : AttrMap)
  | Subgraph (subgraph : Nat)
  deriving DecidableEq

/-- The data members of one `BaseGraph` object. -/
structure BaseGraph where
  graph_name_ : Str
  strict_ : Bool
  directed_ : Bool
  comment_ : Str
  graph_attr_ : AttrMap
  node_attr_ : AttrMap
  edge_attr_ : AttrMap
  statements_ : List Statement
  deriving DecidableEq

/-- The objects of a program: `vars` are the `BaseGraph` objects of the caller, named by their
    position; `heap` are the objects created by `std::make_shared`, the address of an object
    being its position. -/
structure Store where
  vars : List BaseGraph
  heap : List BaseGraph

/-- The constructor `BaseGraph(name, strict, directed)`. -/
def BaseGraph.new (name : Str) (strict directed : Bool) : BaseGraph :=
  ⟨name, strict, directed, [], [], [], [], []⟩

/-- The function `BaseGraph::Statement::to_string`; `recur` is `BaseGraph::to_string`, called
    on the object that the shared pointer points to. -/
def Statement.to_string (heap : List BaseGraph) (recur : BaseGraph → Nat → Option Str)
    (stmt : Statement) (owner : BaseGraph) (indent_level : Nat) : Option Str :=
  match stmt with
  | .RawLine raw => some (indent indent_level ++ raw ++ "\n".toList)
  | .Node node_name node_attrs =>
    some (indent indent_level ++ escape_id node_name ++ attr_suffix node_attrs ++ ";\n".toList)
  | .Edge tail head edge_attrs =>
    some (indent indent_level ++ escape_id tail ++ " ".toList ++ edge_op owner.directed_ ++
      " ".toList ++ escape_id head ++ attr_suffix edge_attrs ++ ";\n".toList)
  | .Subgraph subgraph =>
    match heap[subgraph]? with
    | some g => recur g indent_level
    | none => none

/-- The loop over `statements_` in `BaseGraph::to_string`. -/
def statements_to_string (heap : List BaseGraph) (recur : BaseGraph → Nat → Option Str) :
    List Statement → BaseGraph → Nat → Option Str
  | [], _, _ => some []
  | stmt :: rest, owner, indent_level =>
    match Statement.to_string heap recur stmt owner indent_level,
      statements_to_string heap recur rest owner indent_level with
    | some text, some texts => some (text ++ texts)
    | _, _ => none

/-- The function `BaseGraph::to_string` on an object in memory. The first argument bounds the
    depth of the calls through shared pointers; `none` is returned when the bound is reached or a
    pointer is not the address of an object. -/
def to_string (heap : List BaseGraph) : Nat → BaseGraph → Nat → Option Str
  | 0, _, _ => none
  | fuel + 1, g, indent_level =>
    match statements_to_string heap (to_string heap fuel) g.statements_ g (indent_level + 1) with
    | some body =>
      some (comment_line g.comment_ indent_level ++
        header g.strict_ g.directed_ g.graph_name_ indent_level ++
        attr_block (indent indent_level) "graph".toList g.graph_attr_ ++
        attr_block (indent indent_level) "node".toList g.node_attr_ ++
        attr_block (indent indent_level) "edge".toList g.edge_attr_ ++
        body ++ indent indent_level ++ "\x7d\n".toList)
    | none => none

/-- The call `to_string()` on the variable `v`, with a depth bound that is enough for every
    store whose pointers go from an object to objects created before it. -/
def Store.to_string (st : Store) (v : Nat) : Option Str :=
  match st.vars[v]? with
  | some g => Mem.to_string st.heap (st.heap.length + 1) g 0
  | none => none

namespace BaseGraph

/-- The function `BaseGraph::set_graph_attr`. -/
def set_graph_attr (g : BaseGraph) (key value : Str) : BaseGraph :=
  { g with graph_attr_ := g.graph_attr_.set key value }

/-- The function `BaseGraph::set_node_attr`. -/
def set_node_attr (g : BaseGraph) (key value : Str) : BaseGraph :=
  { g with node_attr_ := g.node_attr_.set key value }

/-- The function `BaseGraph::set_edge_attr`. -/
def set_edge_attr (g : BaseGraph) (key value : Str) : BaseGraph :=
  { g with edge_attr_ := g.edge_attr_.set key value }

/-- The function `BaseGraph::set_comment`. -/
def set_comment (g : BaseGraph) (comment : Str) : BaseGraph :=
  { g with comment_ := comment }

/-- The call `statements_.push_back(stmt)`. -/
def push_back (g : BaseGraph) (stmt : Statement) : BaseGraph :=
  { g with statements_ := g.statements_ ++ [stmt] }

/-- The function `BaseGraph::node`. -/
def node (g : BaseGraph) (name label : Str) (attrs : AttrMap) : BaseGraph :=
  g.push_back (Statement.Node name (kgraphviz.BaseGraph.merged label attrs))

/-- The function `BaseGraph::edge`. -/
def edge (g : BaseGraph) (tail head : Str) (attrs : AttrMap) : BaseGraph :=
  g.push_back (Statement.Edge tail head attrs)

/-- The function `BaseGraph::edges`. -/
def edges : BaseGraph → List (Str × Str) → AttrMap → BaseGraph
  | g, [], _ => g
  | g, p :: pairs, attrs => edges (g.edge p.1 p.2 attrs) pairs attrs

end BaseGraph

/-- The function `BaseGraph::subgraph` called on the variable `this` with a reference to the
    variable `sub`: `std::make_shared<BaseGraph>(sub)` copies the members of `sub` into a new
    object (the statements with the addresses they hold), and a statement with the address of
    the new object is pushed. -/
def Store.subgraph (st : Store) (this sub : Nat) : Store :=
  match st.vars[sub]?, st.vars[this]? with
  | some s, some t =>
    { vars := st.vars.set this (t.push_back (Statement.Subgraph st.heap.length)),
      heap := st.heap ++ [s] }
  | _, _ => st

/-- A call of a mutating member function, with its arguments; the graph passed to `subgraph`
    is named by its variable. -/
inductive Op where
  | set_graph_attr (key value : Str)
  | set_node_attr (key value : Str)
  | set_edge_attr (key value : Str)
  | set_comment (comment : Str)
  | node (name label : Str) (attrs : AttrMap)
  | edge (tail head : Str) (attrs : AttrMap)
  | edges (pairs : List (Str × Str)) (attrs : AttrMap)
  | subgraph (sub : Nat)

/-- The variable `this` after a member function that changes no other object was called. -/
def Store.update (st : Store) (this : Nat) (f : BaseGraph → BaseGraph) : Store :=
  match st.vars[this]? with
  | some g => { st with vars := st.vars.set this (f g) }
  | none => st

/-- The store after the call `op` on the variable `this`. -/
def Store.call (st : Store) (this : Nat) : Op → Store
  | .set_graph_attr key value => st.update this (fun g => g.set_graph_attr key value)
  | .set_node_attr key value => st.update this (fun g => g.set_node_attr key value)
  | .set_edge_attr key value => st.update this (fun g => g.set_edge_attr key value)
  | .set_comment comment => st.update this (fun g => g.set_comment comment)
  | .node name label attrs => st.update this (fun g => g.node name label attrs)
  | .edge tail head attrs => st.update this (fun g => g.edge tail head attrs)
  | .edges pairs attrs => st.update this (fun g => g.edges pairs attrs)
  | .subgraph sub => st.subgraph this sub

/-- The store after a sequence of calls on the variable `this`. -/
def Store.calls (st : Store) (this : Nat) : List Op → Store
  | [] => st
  | op :: ops => (st.call this op).calls this ops

/-- Every address held by the statement is below `bound`. -/
def Statement.below (bound : Nat) : Statement → Prop
  | .Subgraph subgraph => subgraph < bound
  | _ => True

/-- Every address held by a statement of the object is below `bound`. -/
def BaseGraph.below (bound : Nat) (g : BaseGraph) : Prop :=
  ∀ stmt ∈ g.statements_, stmt.below bound

/-- The stores that the member functions build: a statement of a variable holds the address of
    an object of the heap, a statement of a heap object the address of an object created before
    it. -/
def Store.wf (st : Store) : Prop :=
  (∀ g ∈ st.vars, g.below st.heap.length) ∧
  ∀ (addr : Nat) (g : BaseGraph), st.heap[addr]? = some g → g.below addr

/-- Three graphs of a caller, none with a statement yet: a directed graph `P`, and undirected
    graphs `C` and `D`. -/
def three_graphs : Store :=
  ⟨[BaseGraph.new "P".toList false true, BaseGraph.new "C".toList false false,
    BaseGraph.new "D".toList true false], []⟩

end Mem

namespace Mem

/-- The statement with its shared pointer replaced by the value of the object it points to;
    `recur` gives the value of an object. -/
def Statement.value (heap : List BaseGraph) (recur : BaseGraph → Option kgraphviz.BaseGraph) :
    Statement → Option kgraphviz.Statement
  | .RawLine raw => some (.RawLine raw)
  | .Node node_name node_attrs => some (.Node node_name node_attrs)
  | .Edge tail head edge_attrs => some (.Edge tail head edge_attrs)
  | .Subgraph subgraph =>
    match heap[subgraph]? with
    | some g => (recur g).map kgraphviz.Statement.Subgraph
    | none => none

/-- The values of the statements of an object. -/
def statements_value (heap : List BaseGraph) (recur : BaseGraph → Option kgraphviz.BaseGraph) :
    List Statement → Option (List kgraphviz.Statement)
  | [] => some []
  | stmt :: rest =>
    match Statement.value heap recur stmt, statements_value heap recur rest with
    | some s, some l => some (s :: l)
    | _, _ => none

/-- The graph value that an object in memory stands for: every shared pointer replaced by the
    value of its pointee, to the depth given by the first argument. -/
def value (heap : List BaseGraph) : Nat → BaseGraph → Option kgraphviz.BaseGraph
  | 0, _ => none
  | fuel + 1, g =>
    match statements_value heap (value heap fuel) g.statements_ with
    | some l =>
      some (.mk g.graph_name_ g.strict_ g.directed_ g.comment_ g.graph_attr_ g.node_attr_
        g.edge_attr_ l)
    | none => none

end Mem

/-- The specification's text of an attribute map: `escape_id(key)=escape_id(value)` for each
    entry in iteration order, joined by a comma and a space. -/
def attrs_text (attrs : AttrMap) : Str :=
  List.intercalate ", ".toList
    (attrs.map (fun kv => escape_id kv.1 ++ "=".toList ++ escape_id kv.2))

/-- The specification's text of a node statement at an indent level: the escaped name and the
    optional attribute list. -/
def node_text (indent_level : Nat) (name : Str) (attrs : AttrMap) : Str :=
  indent indent_level ++ escape_id name ++
    (if attrs = [] then [] else " [".toList ++ format_attrs attrs ++ "]".toList) ++ ";\n".toList

/-- The newline character. -/
def newline : Char := Char.ofNat 10

/-- The specification's default-attribute block for a keyword at an indent level: nothing for
    an empty map, else one more level of indentation, the keyword and the bracketed map. -/
def block_text (indent_level : Nat) (kw : Str) (attrs : AttrMap) : Str :=
  if attrs = [] then []
  else indent indent_level ++ "    ".toList ++ kw ++ " [".toList ++ format_attrs attrs ++
    "];\n".toList

/-- The specification's translation of an exit code: a CalledProcessError with the exit code,
    the command line, the given standard output and the captured standard error (empty when
    `quiet` is set) for a non-zero exit code, the value otherwise. -/
def translate_exit {α : Type} (r : ProcessResult) (cmd : Str) (quiet : Bool)
    (stdout_output : Str) (value : α) : Except Error α :=
  if r.exit_code ≠ 0 then
    .error (.CalledProcessError r.exit_code cmd stdout_output
      (if quiet then [] else r.stderr_output))
  else .ok value

/-- The specification's output format: `options.format`, or else the text that
    `get_format_from_filename` takes from the output path. -/
def effective_format (output_file : Str) (options : RenderOptions) : Str :=
  if options.format = [] then get_format_from_filename output_file else options.format

/-- The specification's command line of a render entry point: the command line for the options
    with the output format in place, the `-o` part present when output is not directed to
    stdout and the output file name is not empty. -/
def executed_command (options : RenderOptions) (input_file output_file : Str)
    (use_stdin to_stdout : Bool) : Str :=
  command_line (options.set_format (effective_format output_file options)) input_file
    output_file use_stdin (!to_stdout && decide (output_file ≠ []))

/-- The specification's outcome of a render entry point that executes a command: the command
    line with the standard input given to it, and its exit code translated. -/
def translated_outcome {α : Type} (host : Host) (cmd : Str) (stdin_data : Option Str)
    (quiet : Bool) (stdout_output : ProcessResult → Str) (value : ProcessResult → α) :
    Outcome α :=
  ⟨[(cmd, stdin_data)],
    translate_exit (host.run_command_sink cmd stdin_data) cmd quiet
      (stdout_output (host.run_command_sink cmd stdin_data))
      (value (host.run_command_sink cmd stdin_data))⟩

/-- A host on which every engine is found and every command exits with 1 after writing `err`
    to its standard error. -/
def host_failing : Host :=
  ⟨fun _ => true, fun _ => false, fun _ _ => ⟨1, "out".toList, "err".toList⟩⟩

/-! ### Well-formed DOT text -/

/-- The opening brace. -/
def lbrace : Char := Char.ofNat 123

/-- The closing brace. -/
def rbrace : Char := Char.ofNat 125

/-- Where a reader of DOT text is: outside a quoted identifier, inside one, or inside one
    right after a backslash (a double quote read there belongs to the identifier). -/
inductive Lex where
  | code
  | str
  | esc
  deriving DecidableEq

/-- The state of a reader of DOT text: where it is, how many braces are open, and how many
    top-level blocks were closed. -/
structure Scan where
  lex : Lex
  depth : Nat
  closed : Nat
  deriving DecidableEq

/-- One character read; `none` once a closing brace had no brace to close. -/
def Scan.step : Option Scan → Char → Option Scan
  | none, _ => none
  | some s, c =>
    match s.lex with
    | .code =>
      if c = dquote then some { s with lex := .str }
      else if c = lbrace then some { s with depth := s.depth + 1 }
      else if c = rbrace then
        if s.depth = 0 then none
        else some { s with depth := s.depth - 1,
                           closed := if s.depth = 1 then s.closed + 1 else s.closed }
      else some s
    | .str =>
      if c = dquote then some { s with lex := .code }
      else if c = backslash then some { s with lex := .esc }
      else some s
    | .esc =>
      if c = backslash then some s else some { s with lex := .str }

/-- A text read from a state. -/
def scan (s : Option Scan) (text : Str) : Option Scan := text.foldl Scan.step s

/-- The text after the comment line: a text that starts with `// ` loses its first line. -/
def strip_comment (text : Str) : Str :=
  if "// ".toList.isPrefixOf text then (text.dropWhile (fun c => c != newline)).drop 1 else text

/-- Braces and quoted identifiers of a document in order: read from the start of the text
    after the comment line, no closing brace lacks an opening one, the text ends outside a quoted
    identifier with no brace open, and exactly one top-level block was closed, by the closing
    brace that ends the text. -/
def balanced (text : Str) : Prop :=
  scan (some ⟨.code, 0, 0⟩) (strip_comment text) = some ⟨.code, 0, 1⟩ ∧
  "\x7d\n".toList.isSuffixOf (strip_comment text)

/-- A word that is the `graph` or the `digraph` keyword. -/
def is_graph_keyword (w : Str) : Bool := w == "graph".toList || w == "digraph".toList

/-- The state of a reader that counts keywords: where it is, how many braces are open, the
    word being read at the top level, and the `graph` and `digraph` keywords read so far. -/
structure WordScan where
  lex : Lex
  depth : Nat
  word : Str
  count : Nat

/-- One character read by the reader that counts keywords: outside quoted identifiers and all
    braces, the identifier characters make up words, and a word that ends is counted when it is
    a keyword. -/
def WordScan.step (s : WordScan) (c : Char) : WordScan :=
  match s.lex with
  | .code =>
    if isIdentChar c then
      if s.depth = 0 then { s with word := s.word ++ [c] } else s
    else
      let s1 : WordScan :=
        { s with word := [], count := if is_graph_keyword s.word then s.count + 1 else s.count }
      if c = dquote then { s1 with lex := .str }
      else if c = lbrace then { s1 with depth := s.depth + 1 }
      else if c = rbrace then { s1 with depth := s.depth - 1 }
      else s1
  | .str =>
    if c = dquote then { s with lex := .code }
    else if c = backslash then { s with lex := .esc }
    else s
  | .esc =>
    if c = backslash then s else { s with lex := .str }

/-- The number of `graph` and `digraph` keywords at the top level of a text, after its comment
    line. -/
def keyword_count (text : Str) : Nat :=
  let s := (strip_comment text).foldl WordScan.step ⟨.code, 0, [], 0⟩
  s.count + (if is_graph_keyword s.word then 1 else 0)

/-- An identifier that does not end in a backslash. -/
def safe_id (id : Str) : Bool := id.getLast? != some backslash

/-- A map whose keys and values do not end in a backslash. -/
def safe_attrs (attrs : AttrMap) : Bool := attrs.all (fun kv => safe_id kv.1 && safe_id kv.2)

mutual
/-- A statement that `node`, `edge`, `edges` or `subgraph` pushed, with no identifier that ends
    in a backslash. -/
def Statement.safe : Statement → Bool
  | .RawLine _ => false
  | .Node node_name node_attrs => safe_id node_name && safe_attrs node_attrs
  | .Edge tail head edge_attrs => safe_id tail && safe_id head && safe_attrs edge_attrs
  | .Subgraph subgraph => BaseGraph.safe subgraph
/-- A graph built by the member functions, with no identifier that ends in a backslash. -/
def BaseGraph.safe : BaseGraph → Bool
  | .mk graph_name_ _ _ _ graph_attr_ node_attr_ edge_attr_ statements_ =>
    safe_id graph_name_ && safe_attrs graph_attr_ && safe_attrs node_attr_ &&
      safe_attrs edge_attr_ && safe_statements statements_
/-- Statements that are all safe. -/
def safe_statements : List Statement → Bool
  | [] => true
  | stmt :: rest => Statement.safe stmt && safe_statements rest
end

/-- A text that takes a reader outside a quoted identifier back to the state it started in. -/
def neutral (t : Str) : Prop :=
  ∀ d k : Nat, scan (some ⟨.code, d, k⟩) t = some ⟨.code, d, k⟩

/-- A text that takes a reader inside a block, outside a quoted identifier, back to the state
    it started in. -/
def neutral_inside (t : Str) : Prop :=
  ∀ d k : Nat, scan (some ⟨.code, d + 1, k⟩) t = some ⟨.code, d + 1, k⟩

/-- Where a reader inside a quoted identifier is after the escaped text of an identifier. -/
def lex_after : Lex → Str → Lex
  | l, [] => l
  | _, c :: rest => lex_after (if c = backslash then .esc else .str) rest

/-! ### Process executor (`detail/run_command.hpp`)

The parent side of `run_command_sink` after `fork`, as the sequence of blocking system calls
it makes, next to a child process and the three pipes between them. A pipe holds at most
`capacity` bytes; a `write` to a full pipe and a `read` from an empty pipe whose write end is
open do not return. -/

namespace Exec

/-- Where the parent is in `run_command_sink`: in the `write` of the standard input data with
    `remaining` bytes not yet in the pipe, in the loop that reads the standard output pipe, in
    the loop that reads the standard error pipe, in `waitpid`, or returned. -/
inductive Parent where
  | writing (remaining : Nat)
  | reading_stdout
  | reading_stderr
  | waiting
  | returned
  deriving DecidableEq

/-- The parent, the pipes and the child: the bytes held by each pipe, whether the parent still
    has the write end of the standard input pipe open, the bytes the child has read and not yet
    written, and whether the child has exited (which closes its ends of the pipes). -/
structure State where
  parent : Parent
  stdin_pipe : Nat
  stdin_open : Bool
  stdout_pipe : Nat
  stderr_pipe : Nat
  holding : Nat
  exited : Bool
  deriving DecidableEq

/-- The state when the parent reaches `write(stdin_pipe[1], ...)` with `payload` bytes of
    standard input. -/
def init (payload : Nat) : State :=
  ⟨.writing payload, 0, true, 0, 0, 0, false⟩

/-- One step of the parent, in the order of the code; `none` when the system call it is in does
    not return in this state. The `write` puts as many of the remaining bytes into the pipe as
    fit and returns once all are in, after which the write end is closed; the two loops read up
    to 4096 bytes at a time and end at end of file, when the pipe is empty and the child has
    exited; `waitpid` returns once the child has exited. -/
def parent_step (capacity : Nat) (s : State) : Option State :=
  match s.parent with
  | .writing remaining =>
    if remaining = 0 then some { s with parent := .reading_stdout, stdin_open := false }
    else if s.stdin_pipe < capacity then
      some { s with parent := .writing (remaining - min remaining (capacity - s.stdin_pipe)),
                    stdin_pipe := s.stdin_pipe + min remaining (capacity - s.stdin_pipe) }
    else none
  | .reading_stdout =>
    if 0 < s.stdout_pipe then some { s with stdout_pipe := s.stdout_pipe - min s.stdout_pipe 4096 }
    else if s.exited then some { s with parent := .reading_stderr }
    else none
  | .reading_stderr =>
    if 0 < s.stderr_pipe then some { s with stderr_pipe := s.stderr_pipe - min s.stderr_pipe 4096 }
    else if s.exited then some { s with parent := .waiting }
    else none
  | .waiting => if s.exited then some { s with parent := .returned } else none
  | .returned => none

/-- One step of a child that copies its standard input to its standard output, as `cat` does,
    reading up to `chunk` bytes at a time; `none` when the child is blocked or has exited. It
    writes what it holds as far as the standard output pipe has room, reads when it holds
    nothing, and exits at end of file, when the pipe is empty and the parent has closed the
    write end. -/
def child_step (capacity chunk : Nat) (s : State) : Option State :=
  if s.exited then none
  else if 0 < s.holding then
    if s.stdout_pipe < capacity then
      some { s with holding := s.holding - min s.holding (capacity - s.stdout_pipe),
                    stdout_pipe := s.stdout_pipe + min s.holding (capacity - s.stdout_pipe) }
    else none
  else if 0 < s.stdin_pipe then
    some { s with holding := min s.stdin_pipe chunk,
                  stdin_pipe := s.stdin_pipe - min s.stdin_pipe chunk }
  else if s.stdin_open then none
  else some { s with exited := true }

/-- The states that parent and child reach from a state, their steps taken in any order. -/
inductive Reachable (capacity chunk : Nat) (s0 : State) : State → Prop where
  | start : Reachable capacity chunk s0 s0
  | parent (s t : State) : Reachable capacity chunk s0 s → parent_step capacity s = some t →
      Reachable capacity chunk s0 t
  | child (s t : State) : Reachable capacity chunk s0 s → child_step capacity chunk s = some t →
      Reachable capacity chunk s0 t

/-- A state in which the call has not returned and neither parent nor child can take a step. -/
def deadlocked (capacity chunk : Nat) (s : State) : Prop :=
  s.parent ≠ .returned ∧ parent_step capacity s = none ∧ child_step capacity chunk s = none

/-- The steps of a schedule taken from a state, `true` for the parent and `false` for the
    child; a step that is not possible is skipped. -/
def run (capacity chunk : Nat) : List Bool → State → State
  | [], s => s
  | true :: rest, s => run capacity chunk rest ((parent_step capacity s).getD s)
  | false :: rest, s => run capacity chunk rest ((child_step capacity chunk s).getD s)

end Exec

end kgraphviz

/-! ## Theorems -/

namespace kgraphviz

/-! ### Identifier escaping -/

theorem u32_le (n : Nat) (hn : n < 4294967296) (c : Char) :
    (n.toUInt32 ≤ c.val) = (n ≤ c.toNat) := by
  rw [UInt32.le_def]
  simp [Nat.toUInt32, UInt32.ofNat, Char.toNat, UInt32.toNat, BitVec.le_def, Nat.mod_eq_of_lt hn]

theorem u32_ge (n : Nat) (hn : n < 4294967296) (c : Char) :
    (c.val ≤ n.toUInt32) = (c.toNat ≤ n) := by
  rw [UInt32.le_def]
  simp [Nat.toUInt32, UInt32.ofNat, Char.toNat, UInt32.toNat, BitVec.le_def, Nat.mod_eq_of_lt hn]

/-- The test of the first loop of `escape_id` accepts exactly the identifier characters. -/
theorem isalnum_or_underscore (c : Char) : (isalnum c || c == '_') = isIdentChar c := by
  have e1 := u32_le 48 (by decide) c
  have e2 := u32_ge 57 (by decide) c
  have e3 := u32_le 65 (by decide) c
  have e4 := u32_ge 90 (by decide) c
  have e5 := u32_le 97 (by decide) c
  have e6 := u32_ge 122 (by decide) c
  simp only [isIdentChar, isalnum, Char.isAlpha, Char.isUpper, Char.isLower, Char.isDigit]
  change _ = (((decide (Nat.toUInt32 65 ≤ c.val) && decide (c.val ≤ Nat.toUInt32 90)) ||
    (decide (Nat.toUInt32 97 ≤ c.val) && decide (c.val ≤ Nat.toUInt32 122))) ||
    (decide (Nat.toUInt32 48 ≤ c.val) && decide (c.val ≤ Nat.toUInt32 57)) || c == '_')
  simp only [e1, e2, e3, e4, e5, e6]
  cases decide (48 ≤ c.toNat) <;> cases decide (c.toNat ≤ 57) <;> cases decide (65 ≤ c.toNat) <;>
    cases decide (c.toNat ≤ 90) <;> cases decide (97 ≤ c.toNat) <;>
    cases decide (c.toNat ≤ 122) <;> cases (c == '_') <;> rfl

/-- The first loop jumps to `need_escape` exactly when some character is not an identifier
    character. -/
theorem need_escape_eq_false (id : Str) :
    need_escape id = false ↔ ∀ c ∈ id, isIdentChar c = true := by
  induction id with
  | nil => simp [need_escape]
  | cons ch rest ih =>
    have hc := isalnum_or_underscore ch
    rw [List.forall_mem_cons, ← hc, ← ih]
    cases h1 : isalnum ch <;> cases h2 : (ch == '_') <;> simp [need_escape, bne, h1, h2]

/-- The second loop appends the escaped characters to what the stream already holds. -/
theorem escape_loop_eq (oss id : Str) :
    escape_loop oss id =
      oss ++ id.flatMap (fun c => if c = dquote then [backslash, dquote] else [c]) := by
  induction id generalizing oss with
  | nil => simp [escape_loop]
  | cons ch rest ih =>
    by_cases h : ch = dquote
    · simp [escape_loop, h, ih]
    · simp [escape_loop, h, ih]

/-- The quoted branch of `escape_id` is the specification's quoted form. -/
theorem escape_id_of_need_escape (id : Str) (h : need_escape id = true) :
    escape_id id = quoted id := by
  have hne : id ≠ [] := by
    rintro rfl
    simp [need_escape] at h
  cases id with
  | nil => exact absurd rfl hne
  | cons a as => simp [escape_id, h, escape_loop_eq, quoted]

/-- C1: `escape_id id` is `id` itself when `id` is non-empty and all of its characters are ASCII
    letters, digits or underscores; otherwise (the empty identifier included) it is a double
    quote, `id` with every double quote replaced by backslash double quote, and a double
    quote. -/
theorem escape_id_spec (id : Str) :
    escape_id id = if id ≠ [] ∧ ∀ c ∈ id, isIdentChar c = true then id else quoted id := by
  cases id with
  | nil => simp [escape_id, quoted]
  | cons a as =>
    cases h : need_escape (a :: as) with
    | false =>
      have h2 := (need_escape_eq_false (a :: as)).mp h
      rw [if_pos ⟨by simp, h2⟩]
      simp [escape_id, h]
    | true =>
      have h2 : ¬ (∀ c ∈ a :: as, isIdentChar c = true) := by
        intro hall
        have := (need_escape_eq_false (a :: as)).mpr hall
        rw [h] at this
        exact Bool.noConfusion this
      rw [if_neg (fun hh => h2 hh.2)]
      exact escape_id_of_need_escape _ h

/-! ### Headers -/

mutual
/-- Below the top level the text of a statement depends neither on a `strict_` flag nor on more
    of the owner than its `directed_` flag. -/
theorem Statement.text_clear_strict (s : Statement) (o1 o2 : BaseGraph)
    (ho : o1.directed_ = o2.directed_) (n : Nat) :
    (Statement.clear_strict s).to_string o1 (n + 1) = s.to_string o2 (n + 1) := by
  cases s with
  | RawLine raw => simp [Statement.clear_strict, Statement.to_string]
  | Node a b => simp [Statement.clear_strict, Statement.to_string]
  | Edge t h a => simp [Statement.clear_strict, Statement.to_string, edge_op, ho]
  | Subgraph g =>
    simp only [Statement.clear_strict, Statement.to_string]
    exact BaseGraph.to_string_clear_strict g n
/-- A graph serialized as a nested subgraph does not show any `strict_` flag. -/
theorem BaseGraph.to_string_clear_strict (g : BaseGraph) (n : Nat) :
    (BaseGraph.clear_strict g).to_string (n + 1) = g.to_string (n + 1) := by
  cases g with
  | mk nm s d c ga na ea st =>
    simp only [BaseGraph.clear_strict, BaseGraph.to_string]
    rw [statements_to_string_clear_strict st
      (BaseGraph.mk nm false d c ga na ea (clear_strict_list st))
      (BaseGraph.mk nm s d c ga na ea st) rfl (n + 1)]
    simp [comment_line, header, BaseGraph.graph_name_]
/-- The statement loop below the top level does not show any `strict_` flag. -/
theorem statements_to_string_clear_strict (l : List Statement) (o1 o2 : BaseGraph)
    (ho : o1.directed_ = o2.directed_) (n : Nat) :
    statements_to_string (clear_strict_list l) o1 (n + 1) = statements_to_string l o2 (n + 1) := by
  cases l with
  | nil => simp [clear_strict_list, statements_to_string]
  | cons s rest =>
    simp only [clear_strict_list, statements_to_string]
    rw [Statement.text_clear_strict s o1 o2 ho n,
      statements_to_string_clear_strict rest o1 o2 ho n]
end

/-- C2: for a graph with an empty comment, `to_string` at indent level 0 starts with
    `strict ` (only when the flag is set), then `digraph ` for a directed and `graph ` for an
    undirected graph, the escaped name and an opening brace; what follows is the same text as for
    the graph with every `strict_` flag cleared, so the prefix is written once; at an indent
    level of 1 or more the text starts with the indented `subgraph ` header and is the same
    whatever the `strict_` flags are. -/
theorem to_string_header (g : BaseGraph) (hc : g.comment_ = []) :
    (∃ rest : Str,
      g.to_string 0 = (if g.strict_ then "strict ".toList else []) ++
        (if g.directed_ then "digraph ".toList else "graph ".toList) ++
        escape_id g.graph_name_ ++ " \x7b\n".toList ++ rest ∧
      g.clear_strict.to_string 0 =
        (if g.directed_ then "digraph ".toList else "graph ".toList) ++
        escape_id g.graph_name_ ++ " \x7b\n".toList ++ rest) ∧
    ∀ n : Nat, g.to_string (n + 1) = g.clear_strict.to_string (n + 1) ∧
      (indent (n + 1) ++ "subgraph ".toList) <+: g.to_string (n + 1) := by
  refine ⟨?_, fun n => ⟨(BaseGraph.to_string_clear_strict g n).symm, ?_⟩⟩
  · cases g with
    | mk nm s d c ga na ea st =>
      simp only [BaseGraph.comment_] at hc
      subst hc
      refine ⟨attr_block (indent 0) "graph".toList ga ++ attr_block (indent 0) "node".toList na ++
        attr_block (indent 0) "edge".toList ea ++
        statements_to_string st (BaseGraph.mk nm s d [] ga na ea st) (0 + 1) ++
        indent 0 ++ "\x7d\n".toList, ?_, ?_⟩
      · simp [BaseGraph.to_string, comment_line, header, BaseGraph.comment_, BaseGraph.strict_,
          BaseGraph.directed_, BaseGraph.graph_name_]
      · simp only [BaseGraph.clear_strict, BaseGraph.to_string]
        rw [statements_to_string_clear_strict st
          (BaseGraph.mk nm false d [] ga na ea (clear_strict_list st))
          (BaseGraph.mk nm s d [] ga na ea st) rfl 0]
        simp [comment_line, header, BaseGraph.comment_, BaseGraph.strict_,
          BaseGraph.directed_, BaseGraph.graph_name_]
  · cases g with
    | mk nm s d c ga na ea st =>
      simp only [BaseGraph.to_string, comment_line, header]
      simp [List.append_assoc]

/-- Witness of C2: a strict directed graph with a strict subgraph. -/
theorem to_string_header_witness :
    ((DiGraph "DG".toList true).subgraph (Graph "s".toList true)).to_string 0 =
      "strict digraph DG \x7b\n    subgraph cluster_s \x7b\n    \x7d\n\x7d\n".toList ∧
    ∀ n : Nat, ((DiGraph "DG".toList true).subgraph (Graph "s".toList true)).to_string (n + 1) =
      ((DiGraph "DG".toList true).subgraph (Graph "s".toList true)).clear_strict.to_string
        (n + 1) :=
  ⟨by decide,
    fun n => ((to_string_header ((DiGraph "DG".toList true).subgraph (Graph "s".toList true))
      (by decide)).2 n).1⟩

/-! ### Statements -/

/-- The text of a statement depends on its owner through the `directed_` flag only. -/
theorem Statement.to_string_owner (s : Statement) (o1 o2 : BaseGraph)
    (ho : o1.directed_ = o2.directed_) (n : Nat) : s.to_string o1 n = s.to_string o2 n := by
  cases s <;> simp [Statement.to_string, edge_op, ho]

theorem statements_to_string_owner (l : List Statement) (o1 o2 : BaseGraph)
    (ho : o1.directed_ = o2.directed_) (n : Nat) :
    statements_to_string l o1 n = statements_to_string l o2 n := by
  induction l with
  | nil => simp [statements_to_string]
  | cons s rest ih =>
    simp only [statements_to_string]
    rw [ih, Statement.to_string_owner s o1 o2 ho n]

theorem statements_to_string_append (l1 l2 : List Statement) (o : BaseGraph) (n : Nat) :
    statements_to_string (l1 ++ l2) o n =
      statements_to_string l1 o n ++ statements_to_string l2 o n := by
  induction l1 with
  | nil => simp [statements_to_string]
  | cons s rest ih => simp [statements_to_string, ih]

theorem BaseGraph.directed_push_back (g : BaseGraph) (s : Statement) :
    (g.push_back s).directed_ = g.directed_ := by
  cases g; rfl

/-- Pushing a statement puts its text, and nothing else, before the closing line. -/
theorem BaseGraph.to_string_push_back (g : BaseGraph) (s : Statement) (n : Nat) :
    ∃ pre : Str, g.to_string n = pre ++ (indent n ++ "\x7d\n".toList) ∧
      (g.push_back s).to_string n =
        pre ++ s.to_string g (n + 1) ++ (indent n ++ "\x7d\n".toList) := by
  cases g with
  | mk nm st d c ga na ea l =>
    refine ⟨comment_line c n ++ header st d nm n ++
      attr_block (indent n) "graph".toList ga ++ attr_block (indent n) "node".toList na ++
      attr_block (indent n) "edge".toList ea ++
      statements_to_string l (BaseGraph.mk nm st d c ga na ea l) (n + 1), ?_, ?_⟩
    · simp [BaseGraph.to_string]
    · simp only [BaseGraph.push_back, BaseGraph.to_string]
      rw [statements_to_string_append,
        statements_to_string_owner l (BaseGraph.mk nm st d c ga na ea (l ++ [s]))
          (BaseGraph.mk nm st d c ga na ea l) rfl,
        statements_to_string_owner [s] (BaseGraph.mk nm st d c ga na ea (l ++ [s]))
          (BaseGraph.mk nm st d c ga na ea l) rfl]
      simp [statements_to_string, comment_line, header, BaseGraph.comment_, BaseGraph.strict_,
        BaseGraph.directed_, BaseGraph.graph_name_]

/-- The text of an edge statement is the specification's, with the owner's flag. -/
theorem Statement.to_string_edge (owner : BaseGraph) (tail head : Str) (attrs : AttrMap)
    (n : Nat) :
    (Statement.Edge tail head attrs).to_string owner n =
      edge_text owner.directed_ n tail head attrs := by
  cases hd : owner.directed_ <;> cases attrs <;>
    simp [Statement.to_string, edge_text, edge_op, attr_suffix, hd]

/-- The call `edges` puts the texts of its edges, in list order, before the closing line. -/
theorem BaseGraph.to_string_edges (pairs : List (Str × Str)) (attrs : AttrMap) (n : Nat)
    (g : BaseGraph) :
    ∃ pre : Str, g.to_string n = pre ++ (indent n ++ "\x7d\n".toList) ∧
      (g.edges pairs attrs).to_string n =
        pre ++ pairs.flatMap (fun p => edge_text g.directed_ (n + 1) p.1 p.2 attrs) ++
          (indent n ++ "\x7d\n".toList) := by
  induction pairs generalizing g with
  | nil =>
    obtain ⟨pre, h1, _⟩ := BaseGraph.to_string_push_back g (Statement.RawLine []) n
    exact ⟨pre, h1, by simp [BaseGraph.edges, h1]⟩
  | cons p rest ih =>
    obtain ⟨pre, h1, h2⟩ := BaseGraph.to_string_push_back g (Statement.Edge p.1 p.2 attrs) n
    obtain ⟨pre2, h3, h4⟩ := ih (g.edge p.1 p.2 attrs)
    refine ⟨pre, h1, ?_⟩
    have h5 : pre2 = pre ++ edge_text g.directed_ (n + 1) p.1 p.2 attrs := by
      have h6 := h3
      rw [BaseGraph.edge, h2, Statement.to_string_edge] at h6
      exact (List.append_cancel_right h6).symm
    rw [BaseGraph.edges, h4, h5]
    simp [BaseGraph.edge, BaseGraph.directed_push_back]

/-- C3: an edge added by `edge` or `edges` is serialized, before the closing line of the graph
    that owns it, as the escaped tail, ` -> ` for a directed and ` -- ` for an undirected owner,
    and the escaped head; an edge of a graph nested in a parent `p` is written with the flag of
    the nested graph, whatever the flag of `p`. -/
theorem edge_operator (g : BaseGraph) (tail head : Str) (attrs : AttrMap)
    (pairs : List (Str × Str)) (n : Nat) :
    (∃ pre : Str, g.to_string n = pre ++ (indent n ++ "\x7d\n".toList) ∧
      (g.edge tail head attrs).to_string n =
        pre ++ edge_text g.directed_ (n + 1) tail head attrs ++
          (indent n ++ "\x7d\n".toList)) ∧
    (∃ pre : Str, g.to_string n = pre ++ (indent n ++ "\x7d\n".toList) ∧
      (g.edges pairs attrs).to_string n =
        pre ++ pairs.flatMap (fun p => edge_text g.directed_ (n + 1) p.1 p.2 attrs) ++
          (indent n ++ "\x7d\n".toList)) ∧
    ∀ p : BaseGraph, ∃ pre_p pre_g : Str,
      p.to_string n = pre_p ++ (indent n ++ "\x7d\n".toList) ∧
      g.to_string (n + 1) = pre_g ++ (indent (n + 1) ++ "\x7d\n".toList) ∧
      (p.subgraph (g.edge tail head attrs)).to_string n =
        pre_p ++ (pre_g ++ edge_text g.directed_ (n + 1 + 1) tail head attrs ++
          (indent (n + 1) ++ "\x7d\n".toList)) ++ (indent n ++ "\x7d\n".toList) := by
  refine ⟨?_, BaseGraph.to_string_edges pairs attrs n g, fun p => ?_⟩
  · obtain ⟨pre, h1, h2⟩ := BaseGraph.to_string_push_back g (Statement.Edge tail head attrs) n
    exact ⟨pre, h1, by rw [BaseGraph.edge, h2, Statement.to_string_edge]⟩
  · obtain ⟨pre_g, h1, h2⟩ :=
      BaseGraph.to_string_push_back g (Statement.Edge tail head attrs) (n + 1)
    obtain ⟨pre_p, h3, h4⟩ :=
      BaseGraph.to_string_push_back p (Statement.Subgraph (g.edge tail head attrs)) n
    refine ⟨pre_p, pre_g, h3, h1, ?_⟩
    rw [BaseGraph.subgraph, h4, Statement.to_string, BaseGraph.edge, h2,
      Statement.to_string_edge]

/-- An undirected subgraph inside a directed graph keeps its own edge operator. -/
theorem edge_operator_example :
    (((DiGraph "DG".toList false).edge "a".toList "b".toList []).subgraph
      ((Graph "s".toList false).edges [("x".toList, "y z".toList)] [])).to_string 0 =
      ("digraph DG \x7b\n    a -> b;\n    subgraph cluster_s \x7b\n        x -- \"y z\";\n" ++
        "    \x7d\n\x7d\n").toList := by
  decide

/-! ### Attribute maps -/

theorem Char.eq_of_toNat_eq (a b : Char) (h : a.toNat = b.toNat) : a = b :=
  Char.ext (UInt32.toNat.inj h)

theorem str_lt_irrefl (a : Str) : str_lt a a = false := by
  induction a with
  | nil => rfl
  | cons x xs ih => simp [str_lt, ih]

/-- Two strings neither of which is smaller than the other are equal. -/
theorem str_lt_total (a b : Str) (h1 : str_lt a b = false) (h2 : str_lt b a = false) :
    a = b := by
  induction a generalizing b with
  | nil =>
    cases b with
    | nil => rfl
    | cons y ys => simp [str_lt] at h1
  | cons x xs ih =>
    cases b with
    | nil => simp [str_lt] at h2
    | cons y ys =>
      simp only [str_lt] at h1 h2
      by_cases hxy : x.toNat < y.toNat
      · simp [hxy] at h1
      · by_cases hyx : y.toNat < x.toNat
        · simp [hyx] at h2
        · simp only [hxy, hyx, if_false] at h1 h2
          have hc : x = y := Char.eq_of_toNat_eq x y (by omega)
          rw [hc, ih ys h1 h2]

theorem str_lt_trans (a b c : Str) (h1 : str_lt a b = true) (h2 : str_lt b c = true) :
    str_lt a c = true := by
  induction a generalizing b c with
  | nil =>
    cases c with
    | nil => cases b <;> simp [str_lt] at h2
    | cons z zs => rfl
  | cons x xs ih =>
    cases b with
    | nil => simp [str_lt] at h1
    | cons y ys =>
      cases c with
      | nil => simp [str_lt] at h2
      | cons z zs =>
        simp only [str_lt] at h1 h2 ⊢
        by_cases hxy : x.toNat < y.toNat
        · by_cases hyz : y.toNat < z.toNat
          · have : x.toNat < z.toNat := by omega
            simp [this]
          · by_cases hzy : z.toNat < y.toNat
            · simp [hyz, hzy] at h2
            · have : x.toNat < z.toNat := by omega
              simp [this]
        · by_cases hyx : y.toNat < x.toNat
          · simp [hxy, hyx] at h1
          · simp only [hxy, hyx, if_false] at h1
            by_cases hyz : y.toNat < z.toNat
            · have : x.toNat < z.toNat := by omega
              simp [this]
            · by_cases hzy : z.toNat < y.toNat
              · simp [hyz, hzy] at h2
              · simp only [hyz, hzy, if_false] at h2
                have h3 : ¬ x.toNat < z.toNat := by omega
                have h4 : ¬ z.toNat < x.toNat := by omega
                simp only [h3, h4, if_false]
                exact ih ys zs h1 h2

/-- After `m[key] = value` the key is bound to the value. -/
theorem AttrMap.find_set_self (m : AttrMap) (key value : Str) :
    (m.set key value).find key = some value := by
  induction m with
  | nil => simp [AttrMap.set, AttrMap.find, str_lt_irrefl]
  | cons kv rest ih =>
    obtain ⟨k, v⟩ := kv
    simp only [AttrMap.set]
    cases h1 : str_lt key k with
    | true => simp [AttrMap.find, str_lt_irrefl]
    | false =>
      cases h2 : str_lt k key with
      | true => simp [AttrMap.find, h1, h2, ih]
      | false => simp [AttrMap.find, h1, h2]

/-- After `m[key] = value` every other key is bound as before. -/
theorem AttrMap.find_set_other (m : AttrMap) (key value k2 : Str) (hne : k2 ≠ key) :
    (m.set key value).find k2 = m.find k2 := by
  have hk : (!str_lt k2 key && !str_lt key k2) = false := by
    cases h1 : str_lt k2 key <;> cases h2 : str_lt key k2 <;> simp
    exact hne (str_lt_total _ _ h1 h2)
  induction m with
  | nil => simp [AttrMap.set, AttrMap.find, hk]
  | cons kv rest ih =>
    obtain ⟨k, v⟩ := kv
    simp only [AttrMap.set]
    cases h1 : str_lt key k with
    | true => simp only [if_true]; rw [AttrMap.find, hk]; simp
    | false =>
      cases h2 : str_lt k key with
      | true => simp [AttrMap.find, ih]
      | false =>
        have hkk : k = key := str_lt_total _ _ h2 h1
        subst hkk
        simp [AttrMap.find, hk]

/-- Every key of `m.set key value` is `key` or a key of `m`. -/
theorem AttrMap.mem_set (m : AttrMap) (key value : Str) (e : Str × Str)
    (he : e ∈ m.set key value) : e.1 = key ∨ ∃ e2 ∈ m, e2.1 = e.1 := by
  induction m with
  | nil =>
    simp [AttrMap.set] at he
    simp [he]
  | cons kv rest ih =>
    obtain ⟨k, v⟩ := kv
    simp only [AttrMap.set] at he
    cases h1 : str_lt key k with
    | true =>
      simp only [h1, if_true] at he
      rcases List.mem_cons.mp he with he | he
      · simp [he]
      · exact Or.inr ⟨e, he, rfl⟩
    | false =>
      cases h2 : str_lt k key with
      | true =>
        simp only [h1, h2, if_true] at he
        rcases List.mem_cons.mp he with he | he
        · exact Or.inr ⟨(k, v), by simp, by simp [he]⟩
        · rcases ih he with h | ⟨e2, h3, h4⟩
          · exact Or.inl h
          · exact Or.inr ⟨e2, by simp [h3], h4⟩
      | false =>
        simp only [h1, h2] at he
        rcases List.mem_cons.mp he with he | he
        · exact Or.inr ⟨(k, v), by simp, by simp [he]⟩
        · exact Or.inr ⟨e, by simp [he], rfl⟩

/-- The assignment `m[key] = value` keeps the keys strictly ascending. -/
theorem AttrMap.sorted_set (m : AttrMap) (key value : Str) (hs : m.sorted) :
    (m.set key value).sorted := by
  induction m with
  | nil => simp [AttrMap.set, AttrMap.sorted]
  | cons kv rest ih =>
    obtain ⟨k, v⟩ := kv
    unfold AttrMap.sorted at hs ih ⊢
    rw [List.pairwise_cons] at hs
    simp only [AttrMap.set]
    cases h1 : str_lt key k with
    | true =>
      simp only [if_true]
      refine List.pairwise_cons.mpr ⟨?_, List.pairwise_cons.mpr hs⟩
      intro e he
      rcases List.mem_cons.mp he with he | he
      · rw [he]; exact h1
      · exact str_lt_trans _ _ _ h1 (hs.1 e he)
    | false =>
      cases h2 : str_lt k key with
      | true =>
        simp only [if_true]
        refine List.pairwise_cons.mpr ⟨?_, ih hs.2⟩
        intro e he
        rcases AttrMap.mem_set rest key value e he with h | ⟨e2, h3, h4⟩
        · rw [h]; exact h2
        · rw [← h4]; exact hs.1 e2 h3
      | false =>
        exact List.pairwise_cons.mpr ⟨hs.1, hs.2⟩

/-! ### Nodes -/

/-- C4: `node(name, label, attrs)` appends exactly one Node statement and changes nothing else;
    for a non-empty label the statement's map binds `label` to the given label and every other
    key as `attrs` does (and is again a map in key order), for an empty label it is `attrs`;
    `node("A", "hello")` is written as the line `    A [label=hello];`, also when `attrs`
    already binds `label` to `x`. -/
theorem node_label (g : BaseGraph) (name label : Str) (attrs : AttrMap) :
    (∃ m : AttrMap,
      g.node name label attrs = BaseGraph.mk g.graph_name_ g.strict_ g.directed_ g.comment_
        g.graph_attr_ g.node_attr_ g.edge_attr_ (g.statements_ ++ [Statement.Node name m]) ∧
      (label = [] → m = attrs) ∧
      (label ≠ [] → m.find "label".toList = some label ∧
        (∀ k : Str, k ≠ "label".toList → m.find k = attrs.find k) ∧
        (attrs.sorted → m.sorted))) ∧
    ∃ pre : Str, g.to_string 0 = pre ++ "\x7d\n".toList ∧
      (g.node "A".toList "hello".toList []).to_string 0 =
        pre ++ "    A [label=hello];\n".toList ++ "\x7d\n".toList ∧
      (g.node "A".toList "hello".toList [("label".toList, "x".toList)]).to_string 0 =
        pre ++ "    A [label=hello];\n".toList ++ "\x7d\n".toList := by
  constructor
  · refine ⟨BaseGraph.merged label attrs, ?_, ?_, ?_⟩
    · cases g; rfl
    · intro h
      simp [BaseGraph.merged, h]
    · intro h
      have hl : label.isEmpty = false := by
        cases label with
        | nil => exact absurd rfl h
        | cons a as => rfl
      simp only [BaseGraph.merged, hl, Bool.not_false, if_true]
      exact ⟨AttrMap.find_set_self _ _ _, fun k hk => AttrMap.find_set_other _ _ _ k hk,
        AttrMap.sorted_set _ _ _⟩
  · obtain ⟨pre, h1, h2⟩ := BaseGraph.to_string_push_back g
      (Statement.Node "A".toList (BaseGraph.merged "hello".toList [])) 0
    obtain ⟨pre2, h3, h4⟩ := BaseGraph.to_string_push_back g
      (Statement.Node "A".toList
        (BaseGraph.merged "hello".toList [("label".toList, "x".toList)])) 0
    have hp : pre2 = pre := List.append_cancel_right (h3.symm.trans h1)
    subst hp
    refine ⟨pre2, ?_, ?_, ?_⟩
    · rw [h1]; rfl
    · rw [BaseGraph.node, h2]
      have : (Statement.Node "A".toList (BaseGraph.merged "hello".toList [])).to_string g
          (0 + 1) = "    A [label=hello];\n".toList := by
        simp only [Statement.to_string]
        decide
      rw [this]; rfl
    · rw [BaseGraph.node, h4]
      have : (Statement.Node "A".toList
          (BaseGraph.merged "hello".toList [("label".toList, "x".toList)])).to_string g
          (0 + 1) = "    A [label=hello];\n".toList := by
        simp only [Statement.to_string]
        decide
      rw [this]; rfl

/-- Witness of C4: a label given next to an attribute map that already has one. -/
theorem node_label_witness :
    ∃ m : AttrMap,
      (Graph "G".toList false).node "A".toList "hello".toList
          [("color".toList, "red".toList), ("label".toList, "x".toList)] =
        BaseGraph.mk "G".toList false false [] [] [] [] [Statement.Node "A".toList m] ∧
      m.find "label".toList = some "hello".toList ∧
      m.find "color".toList = some "red".toList := by
  obtain ⟨⟨m, h1, _, h3⟩, _⟩ := node_label (Graph "G".toList false) "A".toList "hello".toList
    [("color".toList, "red".toList), ("label".toList, "x".toList)]
  obtain ⟨h4, h5, _⟩ := h3 (by decide)
  exact ⟨m, h1, h4, by rw [h5 "color".toList (by decide)]; decide⟩

/-! ### Renderer: validation -/

theorem isEmpty_eq_decide (s : Str) : s.isEmpty = decide (s = []) := by
  cases s <;> simp

/-- The four checks of `validate_options`, in the order of the code. -/
theorem validate_options_eq (host : Host) (options : RenderOptions)
    (input_file output_file : Str) :
    validate_options host options input_file output_file =
      if options.formatter ≠ [] ∧ options.renderer = [] then
        .error (.RequiredArgumentError "renderer (required by formatter)".toList)
      else if host.is_executable_available options.engine = false then
        .error (.ExecutableNotFound options.engine)
      else if input_file = output_file ∧ input_file ≠ [] ∧
          options.overwrite_filepath = false then
        .error (.RequiredArgumentError
          "overwrite_filepath=true required when input_file == output_file".toList)
      else if options.raise_if_result_exists = true ∧ host.file_good output_file = true then
        .error (.FileExistsError output_file)
      else .ok () := by
  unfold validate_options
  simp only [isEmpty_eq_decide]
  by_cases h1 : options.formatter = [] <;> by_cases h2 : options.renderer = [] <;>
    cases h3 : host.is_executable_available options.engine <;>
    by_cases h4 : input_file = output_file <;> by_cases h5 : input_file = [] <;>
    cases h6 : options.overwrite_filepath <;> cases h7 : options.raise_if_result_exists <;>
    cases h8 : host.file_good output_file <;> simp [h1, h2, h4, h5]

/-- C9: `validate_options` raises RequiredArgumentError when a formatter is set without a
    renderer, whatever else holds; else ExecutableNotFound when the engine is not available; else
    RequiredArgumentError when input and output are the same non-empty path and
    `overwrite_filepath` is false; else FileExistsError when `raise_if_result_exists` is set and
    the output file exists; it returns normally exactly when none of the four holds; and each of
    the four render entry points that gets an error from it raises that error with no command
    executed. -/
theorem validate_options_order (host : Host) (options : RenderOptions)
    (input_file output_file dot_source : Str) :
    (validate_options host options input_file output_file =
      if options.formatter ≠ [] ∧ options.renderer = [] then
        .error (.RequiredArgumentError "renderer (required by formatter)".toList)
      else if host.is_executable_available options.engine = false then
        .error (.ExecutableNotFound options.engine)
      else if input_file = output_file ∧ input_file ≠ [] ∧
          options.overwrite_filepath = false then
        .error (.RequiredArgumentError
          "overwrite_filepath=true required when input_file == output_file".toList)
      else if options.raise_if_result_exists = true ∧ host.file_good output_file = true then
        .error (.FileExistsError output_file)
      else .ok ()) ∧
    (validate_options host options input_file output_file = .ok () ↔
      ¬ (options.formatter ≠ [] ∧ options.renderer = []) ∧
      ¬ host.is_executable_available options.engine = false ∧
      ¬ (input_file = output_file ∧ input_file ≠ [] ∧ options.overwrite_filepath = false) ∧
      ¬ (options.raise_if_result_exists = true ∧ host.file_good output_file = true)) ∧
    (∀ e : Error, validate_options host options input_file output_file = .error e →
      render host input_file output_file options = ⟨[], .error e⟩) ∧
    (∀ e : Error, validate_options host options input_file [] = .error e →
      render_to_memory host input_file options = ⟨[], .error e⟩) ∧
    (∀ e : Error, validate_options host options [] output_file = .error e →
      render_from_string host dot_source output_file options = ⟨[], .error e⟩) ∧
    (∀ e : Error, validate_options host options [] [] = .error e →
      render_from_string_to_memory host dot_source options = ⟨[], .error e⟩) := by
  refine ⟨validate_options_eq host options input_file output_file, ?_, ?_, ?_, ?_, ?_⟩
  · rw [validate_options_eq]
    by_cases c1 : options.formatter ≠ [] ∧ options.renderer = []
    · simp [c1]
    · by_cases c2 : host.is_executable_available options.engine = false
      · simp [c1, c2]
      · by_cases c3 : input_file = output_file ∧ input_file ≠ [] ∧
            options.overwrite_filepath = false
        · simp only [if_neg c1, if_neg c2, if_pos c3]
          constructor
          · intro h; cases h
          · intro h; exact absurd c3 h.2.2.1
        · by_cases c4 : options.raise_if_result_exists = true ∧ host.file_good output_file = true
          · simp only [if_neg c1, if_neg c2, if_neg c3, if_pos c4]
            constructor
            · intro h; cases h
            · intro h; exact absurd c4 h.2.2.2
          · simp only [if_neg c1, if_neg c2, if_neg c3, if_neg c4]
            exact ⟨fun _ => ⟨c1, c2, c3, c4⟩, fun _ => trivial⟩
  · intro e h
    simp only [render, h]
  · intro e h
    simp only [render_to_memory, h]
  · intro e h
    simp only [render_from_string, h]
  · intro e h
    simp only [render_from_string_to_memory, h]

/-- Witness of C9: a missing engine stops `render` before any command is built. -/
theorem validate_options_order_witness :
    render host_without_engine "in.gv".toList "out.svg".toList {} =
      ⟨[], .error (.ExecutableNotFound "dot".toList)⟩ :=
  (validate_options_order host_without_engine {} "in.gv".toList "out.svg".toList []).2.2.1
    (.ExecutableNotFound "dot".toList) rfl

/-! ### Renderer: command construction -/

/-- The command line that `build_command` returns for a non-empty format. -/
theorem build_command_eq (input_file output_file : Str) (options : RenderOptions)
    (to_stdout use_stdin : Bool) (hf : options.format ≠ []) :
    build_command input_file output_file options to_stdout use_stdin =
      .ok (command_line options input_file output_file use_stdin
        (!to_stdout && decide (output_file ≠ []))) := by
  unfold build_command command_line after_format
  simp only [isEmpty_eq_decide]
  by_cases h1 : options.renderer = [] <;> by_cases h2 : options.formatter = [] <;>
    by_cases h3 : output_file = [] <;>
    cases to_stdout <;> cases use_stdin <;> cases h4 : options.neato_no_op <;>
    simp [hf, h1, h2, h3]

/-- Counterexample to C10 as stated: with an empty output file and output not directed to
    stdout, the command has no `-o` part, while the claimed command line ends in `-o ""`. -/
theorem build_command_without_o :
    build_command "in.gv".toList [] { format := "svg".toList } false false =
      .ok "dot -Tsvg \"in.gv\"".toList ∧
    command_line { format := "svg".toList } "in.gv".toList [] false true =
      "dot -Tsvg \"in.gv\" -o \"\"".toList ∧
    build_command "in.gv".toList [] { format := "svg".toList } false false ≠
      .ok (command_line { format := "svg".toList } "in.gv".toList [] false true) := by
  refine ⟨rfl, by decide, ?_⟩
  intro h
  have h2 : build_command "in.gv".toList [] { format := "svg".toList } false false =
      .ok "dot -Tsvg \"in.gv\"".toList := rfl
  rw [h2] at h
  injection h with h3
  revert h3
  decide

/-- C10, amended: for a non-empty format `build_command` returns the engine, ` -T` and the
    format, `:renderer` and `:formatter` when set (the formatter only with a renderer), ` -n`
    when `neato_no_op` is set, the quoted input file when stdin is not used, and the `-o` part
    with the quoted output file exactly when output is not directed to stdout and the output
    file name is not empty. -/
theorem build_command_spec (input_file output_file : Str) (options : RenderOptions)
    (to_stdout use_stdin : Bool) (hf : options.format ≠ []) :
    build_command input_file output_file options to_stdout use_stdin =
      .ok (options.engine ++ " -T".toList ++ options.format ++
        (if options.renderer ≠ [] then
          ":".toList ++ options.renderer ++
            (if options.formatter ≠ [] then ":".toList ++ options.formatter else [])
         else []) ++
        (if options.neato_no_op then " -n".toList else []) ++
        (if use_stdin then [] else " \"".toList ++ input_file ++ "\"".toList) ++
        (if to_stdout = false ∧ output_file ≠ [] then
          " -o \"".toList ++ output_file ++ "\"".toList else [])) := by
  rw [build_command_eq input_file output_file options to_stdout use_stdin hf, command_line,
    after_format]
  by_cases h3 : output_file = [] <;> cases to_stdout <;> simp [h3]

/-- Witness of C10: all options set, output to a file. -/
theorem build_command_spec_witness :
    build_command "in.gv".toList "out.png".toList
        { format := "png".toList, renderer := "cairo".toList, formatter := "gd".toList,
          neato_no_op := true } false false =
      .ok "dot -Tpng:cairo:gd -n \"in.gv\" -o \"out.png\"".toList :=
  (build_command_spec "in.gv".toList "out.png".toList
    { format := "png".toList, renderer := "cairo".toList, formatter := "gd".toList,
      neato_no_op := true } false false (by decide)).trans rfl

/-! ### Renderer: format inference -/

theorem rfind_eq_none (s : Str) (c : Char) : rfind s c = none ↔ c ∉ s := by
  induction s with
  | nil => simp [rfind]
  | cons x rest ih =>
    simp only [rfind]
    cases h : rfind rest c with
    | some pos =>
      have : c ∈ rest := by
        by_contra hc
        rw [ih.mpr hc] at h
        cases h
      simp [this]
    | none =>
      have hn := ih.mp h
      by_cases hx : x = c
      · simp [hx]
      · simp [hx, hn, Ne.symm hx]

/-- The position found by `rfind` is that of the last occurrence. -/
theorem rfind_append (front back : Str) (c : Char) (hb : c ∉ back) :
    rfind (front ++ c :: back) c = some front.length := by
  induction front with
  | nil => simp [rfind, (rfind_eq_none back c).mpr hb]
  | cons x rest ih => simp [rfind, ih]

theorem rfind_eq_some (s : Str) (c : Char) (pos : Nat) (h : rfind s c = some pos) :
    ∃ front back : Str, s = front ++ c :: back ∧ c ∉ back ∧ pos = front.length := by
  induction s generalizing pos with
  | nil => simp [rfind] at h
  | cons x rest ih =>
    simp only [rfind] at h
    cases h2 : rfind rest c with
    | some p =>
      rw [h2] at h
      obtain ⟨front, back, h3, h4, h5⟩ := ih p h2
      refine ⟨x :: front, back, by simp [h3], h4, ?_⟩
      simp only [Option.some.injEq] at h
      simp [← h, h5]
    | none =>
      rw [h2] at h
      by_cases hx : x = c
      · simp only [hx, if_true, Option.some.injEq] at h
        exact ⟨[], rest, by simp [hx], (rfind_eq_none rest c).mp h2, by simp [← h]⟩
      · simp [hx] at h

/-- The format taken from a file name is the text after its last dot. -/
theorem get_format_from_filename_append (front ext : Str) (h1 : '.' ∉ ext) :
    get_format_from_filename (front ++ '.' :: ext) = ext := by
  unfold get_format_from_filename
  rw [rfind_append front ext '.' h1]
  cases ext with
  | nil => simp
  | cons e es => simp

/-- No format is taken from a path exactly when the path string has no text after a last
    dot. -/
theorem get_format_from_filename_eq_nil (filename : Str) :
    get_format_from_filename filename = [] ↔ no_text_after_last_dot filename := by
  unfold get_format_from_filename no_text_after_last_dot
  cases h : rfind filename '.' with
  | none => simp [(rfind_eq_none filename '.').mp h]
  | some pos =>
    obtain ⟨front, back, h3, h4, h5⟩ := rfind_eq_some filename '.' pos h
    subst h3 h5
    cases back with
    | nil => simp
    | cons b bs =>
      simp only [List.length_append, List.length_cons, List.mem_append, List.mem_cons]
      have hlt : front.length + 1 < front.length + (bs.length + 1 + 1) := by omega
      simp only [hlt, if_true]
      constructor
      · intro h6
        simp at h6
      · rintro (h6 | ⟨f2, h6⟩)
        · exact absurd (Or.inr (Or.inl trivial)) h6
        · exfalso
          rcases List.eq_nil_or_concat (b :: bs) with h9 | ⟨l, a, h9⟩
          · cases h9
          · rw [h9] at h6 h4
            have h7 : (front ++ '.' :: l) ++ [a] = f2 ++ ['.'] := by simpa using h6
            have h8 := List.append_inj_right' h7 rfl
            simp only [List.cons.injEq, and_true] at h8
            exact h4 (by simp [h8])

theorem deduce_format_of_empty (filename ext : Str) (options : RenderOptions)
    (hf : options.format = []) (he : get_format_from_filename filename = ext) (hx : ext ≠ []) :
    deduce_format filename options = .ok (ext, options.set_format ext) := by
  unfold deduce_format
  simp [isEmpty_eq_decide, hf, he, hx]

theorem deduce_format_of_nonempty (filename : Str) (options : RenderOptions)
    (hf : options.format ≠ []) :
    deduce_format filename options = .ok (options.format, options) := by
  unfold deduce_format
  simp [isEmpty_eq_decide, hf]

/-- The one command that `render` executes once validation and format deduction passed. -/
theorem render_executed (host : Host) (input_file output_file fmt : Str)
    (options options1 : RenderOptions)
    (hv : validate_options host options input_file output_file = .ok ())
    (hd : deduce_format output_file options = .ok (fmt, options1))
    (hf : options1.format ≠ []) :
    (render host input_file output_file options).executed =
      [(command_line options1 input_file output_file false (decide (output_file ≠ [])),
        none)] := by
  have hb := build_command_eq input_file output_file options1 false false hf
  simp only [Bool.not_false, Bool.true_and] at hb
  simp only [render, hv, hd, hb]
  split <;> rfl

/-- The one command that `render_from_string` executes once validation and format deduction
    passed. -/
theorem render_from_string_executed (host : Host) (dot_source output_file fmt : Str)
    (options options1 : RenderOptions)
    (hv : validate_options host options [] output_file = .ok ())
    (ho : output_file ≠ [])
    (hd : deduce_format output_file options = .ok (fmt, options1))
    (hf : options1.format ≠ []) :
    (render_from_string host dot_source output_file options).executed =
      [(command_line options1 [] output_file true true, some dot_source)] := by
  have hb := build_command_eq [] output_file options1 false true hf
  simp only [Bool.not_false, Bool.true_and, ho, ne_eq, not_false_eq_true, decide_True] at hb
  simp only [render_from_string, hv, hd, hb, isEmpty_eq_decide, ho, decide_False]
  simp only [Bool.false_eq_true, if_false]
  split <;> rfl

/-- C6: with an empty `options.format`, the format token that `render` and
    `render_from_string` place after `-T` in the executed command is the text after the last
    dot of the output file name; with a non-empty `options.format` it is that format, whatever
    the output file name is. Validation is assumed to pass, and for `render_from_string` the
    output file name to be non-empty. -/
theorem format_inference (host : Host) (input_file output_file dot_source : Str)
    (options : RenderOptions) :
    (options.format = [] → ∀ front ext : Str,
      output_file = front ++ '.' :: ext → '.' ∉ ext → ext ≠ [] →
      (validate_options host options input_file output_file = .ok () →
        (render host input_file output_file options).executed =
          [(options.engine ++ " -T".toList ++ ext ++
            after_format options input_file output_file false true, none)]) ∧
      (validate_options host options [] output_file = .ok () →
        (render_from_string host dot_source output_file options).executed =
          [(options.engine ++ " -T".toList ++ ext ++
            after_format options [] output_file true true, some dot_source)])) ∧
    (options.format ≠ [] →
      (validate_options host options input_file output_file = .ok () →
        (render host input_file output_file options).executed =
          [(options.engine ++ " -T".toList ++ options.format ++
            after_format options input_file output_file false (decide (output_file ≠ [])),
            none)]) ∧
      (validate_options host options [] output_file = .ok () → output_file ≠ [] →
        (render_from_string host dot_source output_file options).executed =
          [(options.engine ++ " -T".toList ++ options.format ++
            after_format options [] output_file true true, some dot_source)])) := by
  constructor
  · intro hf front ext ho hdot hx
    have hg : get_format_from_filename output_file = ext := by
      rw [ho]; exact get_format_from_filename_append front ext hdot
    have hd := deduce_format_of_empty output_file ext options hf hg hx
    have hne : output_file ≠ [] := by rw [ho]; simp
    constructor
    · intro hv
      rw [render_executed host input_file output_file ext options (options.set_format ext) hv hd
        (by simpa [RenderOptions.set_format] using hx)]
      simp [command_line, after_format, RenderOptions.set_format, hne]
    · intro hv
      rw [render_from_string_executed host dot_source output_file ext options
        (options.set_format ext) hv hne hd (by simpa [RenderOptions.set_format] using hx)]
      simp [command_line, after_format, RenderOptions.set_format]
  · intro hf
    have hd := deduce_format_of_nonempty output_file options hf
    constructor
    · intro hv
      rw [render_executed host input_file output_file options.format options options hv hd hf]
      rfl
    · intro hv hne
      rw [render_from_string_executed host dot_source output_file options.format options options
        hv hne hd hf]
      rfl

/-- Witness of C6: the format `svg` is taken from `out.svg`. -/
theorem format_inference_witness :
    (render host_with_engine "in.gv".toList "out.svg".toList {}).executed =
      [("dot -Tsvg \"in.gv\" -o \"out.svg\"".toList, none)] :=
  (((format_inference host_with_engine "in.gv".toList "out.svg".toList [] {}).1 rfl
    "out".toList "svg".toList rfl (by decide) (by decide)).1 rfl).trans (by decide)

/-! ### Renderer: missing format and self-overwrite -/

/-- Counterexample to C7 as stated: with an empty format and an engine that is not found,
    `render_to_memory` raises ExecutableNotFound, not RequiredArgumentError; and for the output
    path `./out`, whose file name has no extension, `render` takes the format `/out` from the
    dot of the directory part and executes the engine. -/
theorem missing_format_engine_not_found :
    ({} : RenderOptions).format = [] ∧
    (render_to_memory host_without_engine "in.gv".toList {}).result =
      .error (.ExecutableNotFound "dot".toList) ∧
    (∀ arg_name : Str, (render_to_memory host_without_engine "in.gv".toList {}).result ≠
      .error (.RequiredArgumentError arg_name)) ∧
    render host_with_engine "in.gv".toList "./out".toList {} =
      ⟨[("dot -T/out \"in.gv\" -o \"./out\"".toList, none)], .ok ()⟩ := by
  refine ⟨rfl, rfl, fun arg_name h => ?_, rfl⟩
  have h2 : (render_to_memory host_without_engine "in.gv".toList {}).result =
      .error (.ExecutableNotFound "dot".toList) := rfl
  rw [h2] at h
  injection h with h3
  cases h3

/-- C7, amended: with an empty `options.format`, `render_to_memory` and
    `render_from_string_to_memory`, and `render` and `render_from_string` for an output path
    string that is empty, has no dot, or has nothing after its last dot, raise an error without
    executing a command: the error of `validate_options` when validation fails,
    RequiredArgumentError when it passes. Nothing is stated for an output path whose last dot
    lies in a directory part. -/
theorem missing_format (host : Host) (input_file output_file dot_source : Str)
    (options : RenderOptions) (hf : options.format = []) :
    ((render_to_memory host input_file options).executed = [] ∧
      (∀ e : Error, validate_options host options input_file [] = .error e →
        (render_to_memory host input_file options).result = .error e) ∧
      (validate_options host options input_file [] = .ok () →
        (render_to_memory host input_file options).result =
          .error (.RequiredArgumentError "format".toList))) ∧
    ((render_from_string_to_memory host dot_source options).executed = [] ∧
      (∀ e : Error, validate_options host options [] [] = .error e →
        (render_from_string_to_memory host dot_source options).result = .error e) ∧
      (validate_options host options [] [] = .ok () →
        (render_from_string_to_memory host dot_source options).result =
          .error (.RequiredArgumentError "format".toList))) ∧
    (no_text_after_last_dot output_file →
      ((render host input_file output_file options).executed = [] ∧
        (∀ e : Error, validate_options host options input_file output_file = .error e →
          (render host input_file output_file options).result = .error e) ∧
        (validate_options host options input_file output_file = .ok () →
          (render host input_file output_file options).result =
            .error (.RequiredArgumentError
              "format must be set either via options or output filename".toList))) ∧
      ((render_from_string host dot_source output_file options).executed = [] ∧
        (∀ e : Error, validate_options host options [] output_file = .error e →
          (render_from_string host dot_source output_file options).result = .error e) ∧
        (validate_options host options [] output_file = .ok () →
          (render_from_string host dot_source output_file options).result =
            .error (.RequiredArgumentError
              (if output_file = [] then "output_file (required)".toList
               else "format must be set either via options or output filename".toList))))) := by
  have hb : ∀ (i o : Str) (a b : Bool), build_command i o options a b =
      .error (.RequiredArgumentError "format".toList) := by
    intro i o a b
    simp [build_command, hf]
  refine ⟨?_, ?_, fun hn => ?_⟩
  · cases hv : validate_options host options input_file [] with
    | error e => simp [render_to_memory, hv]
    | ok u => cases u; simp [render_to_memory, hv, hb]
  · cases hv : validate_options host options [] [] with
    | error e => simp [render_from_string_to_memory, hv]
    | ok u => cases u; simp [render_from_string_to_memory, hv, hb]
  · have hg := (get_format_from_filename_eq_nil output_file).mpr hn
    have hd : deduce_format output_file options = .error (.RequiredArgumentError
        "format must be set either via options or output filename".toList) := by
      simp [deduce_format, hf, hg]
    constructor
    · cases hv : validate_options host options input_file output_file with
      | error e => simp [render, hv]
      | ok u => cases u; simp [render, hv, hd]
    · cases hv : validate_options host options [] output_file with
      | error e => simp [render_from_string, hv]
      | ok u =>
        cases u
        by_cases ho : output_file = []
        · subst ho
          simp [render_from_string, hv]
        · simp [render_from_string, hv, hd, ho]

/-- Witness of C7: `render_to_memory` with default options, and `render` to the path `out`,
    on a host that has the engine. -/
theorem missing_format_witness :
    ((render_to_memory host_with_engine "in.gv".toList {}).executed = [] ∧
      (render_to_memory host_with_engine "in.gv".toList {}).result =
        .error (.RequiredArgumentError "format".toList)) ∧
    (render host_with_engine "in.gv".toList "out".toList {}).executed = [] ∧
    (render host_with_engine "in.gv".toList "out".toList {}).result =
      .error (.RequiredArgumentError
        "format must be set either via options or output filename".toList) :=
  ⟨⟨(missing_format host_with_engine "in.gv".toList [] [] {} rfl).1.1,
    (missing_format host_with_engine "in.gv".toList [] [] {} rfl).1.2.2 rfl⟩,
    ((missing_format host_with_engine "in.gv".toList "out".toList [] {} rfl).2.2
      (Or.inl (by decide))).1.1,
    ((missing_format host_with_engine "in.gv".toList "out".toList [] {} rfl).2.2
      (Or.inl (by decide))).1.2.2 rfl⟩

/-- Counterexample to C8 as stated: with the same non-empty input and output path,
    `overwrite_filepath = false` and an engine that is not found, `render` raises
    ExecutableNotFound, not RequiredArgumentError. -/
theorem self_overwrite_engine_not_found :
    ({} : RenderOptions).overwrite_filepath = false ∧
    (render host_without_engine "x.gv".toList "x.gv".toList {}).result =
      .error (.ExecutableNotFound "dot".toList) ∧
    ∀ arg_name : Str, (render host_without_engine "x.gv".toList "x.gv".toList {}).result ≠
      .error (.RequiredArgumentError arg_name) := by
  refine ⟨rfl, rfl, fun arg_name h => ?_⟩
  have h2 : (render host_without_engine "x.gv".toList "x.gv".toList {}).result =
      .error (.ExecutableNotFound "dot".toList) := rfl
  rw [h2] at h
  injection h with h3
  cases h3

/-- C8, amended: for a non-empty path `p` and `overwrite_filepath = false`, `render(p, p,
    options)` raises an error and executes no command; the error is RequiredArgumentError when a
    formatter is set without a renderer or the engine is available, and ExecutableNotFound when
    the engine is not available; with `overwrite_filepath = true`, or with input and output both
    empty, the self-overwrite check does not raise. -/
theorem self_overwrite_guard (host : Host) (p input_file output_file : Str)
    (options : RenderOptions) :
    (p ≠ [] → options.overwrite_filepath = false →
      (render host p p options).executed = [] ∧
      (render host p p options).result =
        if options.formatter ≠ [] ∧ options.renderer = [] then
          .error (.RequiredArgumentError "renderer (required by formatter)".toList)
        else if host.is_executable_available options.engine = false then
          .error (.ExecutableNotFound options.engine)
        else .error (.RequiredArgumentError
          "overwrite_filepath=true required when input_file == output_file".toList)) ∧
    (options.overwrite_filepath = true →
      validate_options host options input_file output_file ≠ .error (.RequiredArgumentError
        "overwrite_filepath=true required when input_file == output_file".toList)) ∧
    validate_options host options [] [] ≠ .error (.RequiredArgumentError
      "overwrite_filepath=true required when input_file == output_file".toList) := by
  refine ⟨fun hp ho => ?_, fun ho => ?_, ?_⟩
  · have hv : validate_options host options p p =
        if options.formatter ≠ [] ∧ options.renderer = [] then
          .error (.RequiredArgumentError "renderer (required by formatter)".toList)
        else if host.is_executable_available options.engine = false then
          .error (.ExecutableNotFound options.engine)
        else .error (.RequiredArgumentError
          "overwrite_filepath=true required when input_file == output_file".toList) := by
      rw [validate_options_eq]
      simp [hp, ho]
    by_cases c1 : options.formatter ≠ [] ∧ options.renderer = []
    · rw [if_pos c1] at hv
      simp only [render, hv, if_pos c1, and_self]
    · by_cases c2 : host.is_executable_available options.engine = false
      · rw [if_neg c1, if_pos c2] at hv
        simp only [render, hv, if_neg c1, if_pos c2, and_self]
      · rw [if_neg c1, if_neg c2] at hv
        simp only [render, hv, if_neg c1, if_neg c2, and_self]
  · rw [validate_options_eq]
    by_cases c1 : options.formatter ≠ [] ∧ options.renderer = []
    · rw [if_pos c1]
      intro h
      injection h with h2
      injection h2 with h3
      revert h3
      decide
    · by_cases c2 : host.is_executable_available options.engine = false
      · rw [if_neg c1, if_pos c2]
        intro h
        injection h with h2
        cases h2
      · rw [if_neg c1, if_neg c2, if_neg (by simp [ho])]
        split
        · intro h
          injection h with h2
          cases h2
        · intro h
          cases h
  · rw [validate_options_eq]
    by_cases c1 : options.formatter ≠ [] ∧ options.renderer = []
    · rw [if_pos c1]
      intro h
      injection h with h2
      injection h2 with h3
      revert h3
      decide
    · by_cases c2 : host.is_executable_available options.engine = false
      · rw [if_neg c1, if_pos c2]
        intro h
        injection h with h2
        cases h2
      · rw [if_neg c1, if_neg c2, if_neg (by simp)]
        split
        · intro h
          injection h with h2
          cases h2
        · intro h
          cases h

/-- Witness of C8: `render("x.gv", "x.gv")` with default options where the engine is found. -/
theorem self_overwrite_guard_witness :
    (render host_with_engine "x.gv".toList "x.gv".toList {}).executed = [] ∧
    (render host_with_engine "x.gv".toList "x.gv".toList {}).result =
      .error (.RequiredArgumentError
        "overwrite_filepath=true required when input_file == output_file".toList) :=
  (self_overwrite_guard host_with_engine "x.gv".toList [] [] {}).1 (by decide) rfl

/-! ### Objects in memory: isolation of a subgraph from its original -/

namespace Mem

/-- A statement that has a text keeps it when the heap grows and the recursive calls keep
    their results. -/
theorem Statement.text_mono (heap heap2 : List BaseGraph)
    (recur recur2 : BaseGraph → Nat → Option Str)
    (hh : ∀ (addr : Nat) (g : BaseGraph), heap[addr]? = some g → heap2[addr]? = some g)
    (hr : ∀ (g : BaseGraph) (n : Nat) (t : Str), recur g n = some t → recur2 g n = some t)
    (stmt : Statement) (owner : BaseGraph) (n : Nat) (t : Str)
    (h : Statement.to_string heap recur stmt owner n = some t) :
    Statement.to_string heap2 recur2 stmt owner n = some t := by
  cases stmt with
  | RawLine raw => exact h
  | Node a b => exact h
  | Edge a b c => exact h
  | Subgraph addr =>
    simp only [Statement.to_string] at h ⊢
    cases hg : heap[addr]? with
    | none => rw [hg] at h; cases h
    | some g =>
      rw [hg] at h
      rw [hh addr g hg]
      exact hr g n t h

theorem statements_to_string_mono (heap heap2 : List BaseGraph)
    (recur recur2 : BaseGraph → Nat → Option Str)
    (hh : ∀ (addr : Nat) (g : BaseGraph), heap[addr]? = some g → heap2[addr]? = some g)
    (hr : ∀ (g : BaseGraph) (n : Nat) (t : Str), recur g n = some t → recur2 g n = some t)
    (l : List Statement) (owner : BaseGraph) (n : Nat) (t : Str)
    (h : statements_to_string heap recur l owner n = some t) :
    statements_to_string heap2 recur2 l owner n = some t := by
  induction l generalizing t with
  | nil => exact h
  | cons stmt rest ih =>
    simp only [statements_to_string] at h ⊢
    cases h1 : Statement.to_string heap recur stmt owner n with
    | none => rw [h1] at h; cases h
    | some a =>
      cases h2 : statements_to_string heap recur rest owner n with
      | none => rw [h1, h2] at h; cases h
      | some b =>
        rw [h1, h2] at h
        rw [Statement.text_mono heap heap2 recur recur2 hh hr stmt owner n a h1, ih b h2]
        exact h

/-- A text that `to_string` returns is returned again with a larger depth bound and a heap
    that has more objects. -/
theorem to_string_mono (heap heap2 : List BaseGraph)
    (hh : ∀ (addr : Nat) (g : BaseGraph), heap[addr]? = some g → heap2[addr]? = some g)
    (fuel fuel2 : Nat) (hf : fuel ≤ fuel2) (g : BaseGraph) (n : Nat) (t : Str)
    (h : to_string heap fuel g n = some t) : to_string heap2 fuel2 g n = some t := by
  induction fuel generalizing fuel2 g n t with
  | zero => cases h
  | succ k ih =>
    cases fuel2 with
    | zero => omega
    | succ k2 =>
      simp only [to_string] at h ⊢
      cases hb : statements_to_string heap (to_string heap k) g.statements_ g (n + 1) with
      | none => rw [hb] at h; cases h
      | some body =>
        rw [hb] at h
        rw [statements_to_string_mono heap heap2 (to_string heap k) (to_string heap2 k2) hh
          (fun g2 n2 t2 h2 => ih k2 (by omega) g2 n2 t2 h2) g.statements_ g (n + 1) body hb]
        exact h

theorem to_string_succ (heap : List BaseGraph) (fuel : Nat) (g : BaseGraph) (n : Nat) :
    to_string heap (fuel + 1) g n =
      match statements_to_string heap (to_string heap fuel) g.statements_ g (n + 1) with
      | some body =>
        some (comment_line g.comment_ n ++ header g.strict_ g.directed_ g.graph_name_ n ++
          attr_block (indent n) "graph".toList g.graph_attr_ ++
          attr_block (indent n) "node".toList g.node_attr_ ++
          attr_block (indent n) "edge".toList g.edge_attr_ ++
          body ++ indent n ++ "\x7d\n".toList)
      | none => none := rfl

theorem statements_to_string_total (heap : List BaseGraph)
    (recur : BaseGraph → Nat → Option Str) (bound : Nat)
    (hr : ∀ (addr : Nat), addr < bound → ∃ g : BaseGraph, heap[addr]? = some g ∧
      ∀ n : Nat, ∃ t : Str, recur g n = some t)
    (l : List Statement) (hl : ∀ stmt ∈ l, stmt.below bound) (owner : BaseGraph) (n : Nat) :
    ∃ t : Str, statements_to_string heap recur l owner n = some t := by
  induction l with
  | nil => exact ⟨[], rfl⟩
  | cons stmt rest ih =>
    obtain ⟨b, hb⟩ := ih (fun s hs => hl s (List.mem_cons_of_mem _ hs))
    have hs : ∃ a : Str, Statement.to_string heap recur stmt owner n = some a := by
      have hbelow := hl stmt (List.mem_cons_self _ _)
      cases stmt with
      | RawLine raw => exact ⟨_, rfl⟩
      | Node x y => exact ⟨_, rfl⟩
      | Edge x y z => exact ⟨_, rfl⟩
      | Subgraph addr =>
        obtain ⟨g, hg, ht⟩ := hr addr hbelow
        obtain ⟨t, ht⟩ := ht n
        exact ⟨t, by simp only [Statement.to_string, hg, ht]⟩
    obtain ⟨a, ha⟩ := hs
    exact ⟨a ++ b, by simp only [statements_to_string, ha, hb]⟩

/-- On a heap whose objects point to objects created before them, `to_string` returns a text
    for an object whose addresses are below `bound` when the depth bound is above `bound`. -/
theorem to_string_total (heap : List BaseGraph)
    (hw : ∀ (addr : Nat) (g : BaseGraph), heap[addr]? = some g → g.below addr)
    (bound : Nat) (hb : bound ≤ heap.length) (g : BaseGraph) (hg : g.below bound) (n : Nat) :
    ∃ t : Str, to_string heap (bound + 1) g n = some t := by
  induction bound generalizing g n with
  | zero =>
    obtain ⟨body, h⟩ := statements_to_string_total heap (to_string heap 0) 0
      (fun addr ha => absurd ha (Nat.not_lt_zero addr)) g.statements_ hg g (n + 1)
    exact ⟨_, by rw [to_string_succ, h]⟩
  | succ k ih =>
    have hr : ∀ (addr : Nat), addr < k + 1 → ∃ g2 : BaseGraph, heap[addr]? = some g2 ∧
        ∀ n2 : Nat, ∃ t : Str, to_string heap (k + 1) g2 n2 = some t := by
      intro addr ha
      have hlt : addr < heap.length := by omega
      refine ⟨heap[addr], List.getElem?_eq_getElem hlt, fun n2 => ?_⟩
      have hbelow := hw addr heap[addr] (List.getElem?_eq_getElem hlt)
      have hbelow2 : (heap[addr]).below k := by
        intro stmt hs
        have := hbelow stmt hs
        cases stmt with
        | Subgraph a2 =>
          simp only [Statement.below] at this ⊢
          omega
        | RawLine raw => trivial
        | Node x y => trivial
        | Edge x y z => trivial
      exact ih (by omega) heap[addr] hbelow2 n2
    obtain ⟨body, h⟩ := statements_to_string_total heap (to_string heap (k + 1)) (k + 1) hr
      g.statements_ hg g (n + 1)
    exact ⟨_, by rw [to_string_succ, h]⟩

theorem Statement.below_of_le (stmt : Statement) (b b2 : Nat) (hb : b ≤ b2)
    (h : stmt.below b) : stmt.below b2 := by
  cases stmt with
  | Subgraph addr =>
    simp only [Statement.below] at h ⊢
    omega
  | RawLine raw => trivial
  | Node x y => trivial
  | Edge x y z => trivial

theorem BaseGraph.below_mono (g : BaseGraph) (b b2 : Nat) (hb : b ≤ b2) (h : g.below b) :
    g.below b2 :=
  fun stmt hs => Statement.below_of_le stmt b b2 hb (h stmt hs)

theorem BaseGraph.below_push_back (g : BaseGraph) (stmt : Statement) (b : Nat)
    (h : g.below b) (hs : stmt.below b) : (g.push_back stmt).below b := by
  intro s2 h2
  simp only [BaseGraph.push_back, List.mem_append, List.mem_singleton] at h2
  rcases h2 with h2 | h2
  · exact h s2 h2
  · rw [h2]; exact hs

theorem BaseGraph.below_edges (pairs : List (Str × Str)) (attrs : AttrMap) (b : Nat)
    (g : BaseGraph) (h : g.below b) : (g.edges pairs attrs).below b := by
  induction pairs generalizing g with
  | nil => exact h
  | cons pr rest ih =>
    exact ih _ (BaseGraph.below_push_back g _ b h trivial)

/-- A member function that keeps the addresses of the object below every bound keeps the
    store well formed. -/
theorem Store.wf_update (st : Store) (this : Nat) (f : BaseGraph → BaseGraph)
    (hf : ∀ (g : BaseGraph) (b : Nat), g.below b → (f g).below b) (hw : st.wf) :
    (st.update this f).wf := by
  unfold Store.update
  cases hg : st.vars[this]? with
  | none => exact hw
  | some g =>
    refine ⟨fun g2 h2 => ?_, hw.2⟩
    rcases List.mem_or_eq_of_mem_set h2 with h3 | h3
    · exact hw.1 g2 h3
    · rw [h3]
      exact hf g _ (hw.1 g (List.getElem?_mem hg))

theorem Store.wf_subgraph (st : Store) (this sub : Nat) (hw : st.wf) :
    (st.subgraph this sub).wf := by
  unfold Store.subgraph
  cases hs : st.vars[sub]? with
  | none => exact hw
  | some s =>
    cases ht : st.vars[this]? with
    | none => exact hw
    | some t =>
      have hsb := hw.1 s (List.getElem?_mem hs)
      have htb := hw.1 t (List.getElem?_mem ht)
      refine ⟨fun g2 h2 => ?_, fun addr g2 h2 => ?_⟩
      · simp only [List.length_append, List.length_singleton]
        rcases List.mem_or_eq_of_mem_set h2 with h3 | h3
        · exact BaseGraph.below_mono g2 _ _ (Nat.le_succ _) (hw.1 g2 h3)
        · rw [h3]
          refine BaseGraph.below_push_back t _ _
            (BaseGraph.below_mono t _ _ (Nat.le_succ _) htb) ?_
          simp only [Statement.below]
          omega
      · simp only at h2
        by_cases hlt : addr < st.heap.length
        · rw [List.getElem?_append_left hlt] at h2
          exact hw.2 addr g2 h2
        · have hge : st.heap.length ≤ addr := Nat.le_of_not_lt hlt
          rw [List.getElem?_append_right hge] at h2
          have h0 : addr - st.heap.length = 0 := by
            by_contra hne
            have h1 : 1 ≤ addr - st.heap.length := Nat.one_le_iff_ne_zero.mpr hne
            rw [List.getElem?_eq_none (by simpa using h1)] at h2
            cases h2
          rw [h0] at h2
          simp only [List.getElem?_cons_zero, Option.some.injEq] at h2
          rw [← h2]
          exact BaseGraph.below_mono s _ _ hge hsb

/-- Every call of a mutating member function keeps the store well formed. -/
theorem Store.wf_call (st : Store) (this : Nat) (op : Op) (hw : st.wf) :
    (st.call this op).wf := by
  cases op with
  | set_graph_attr k v => exact Store.wf_update st this _ (fun g b h => h) hw
  | set_node_attr k v => exact Store.wf_update st this _ (fun g b h => h) hw
  | set_edge_attr k v => exact Store.wf_update st this _ (fun g b h => h) hw
  | set_comment c => exact Store.wf_update st this _ (fun g b h => h) hw
  | node nm l a =>
    exact Store.wf_update st this _ (fun g b h => BaseGraph.below_push_back g _ b h trivial) hw
  | edge t h a =>
    exact Store.wf_update st this _ (fun g b h => BaseGraph.below_push_back g _ b h trivial) hw
  | edges ps a =>
    exact Store.wf_update st this _ (fun g b h => BaseGraph.below_edges ps a b g h) hw
  | subgraph sub => exact Store.wf_subgraph st this sub hw

/-- A call on the variable `this` leaves every other variable as it is and only adds objects
    to the heap. -/
theorem Store.call_frame (st : Store) (this other : Nat) (op : Op) (hne : other ≠ this) :
    (st.call this op).vars[other]? = st.vars[other]? ∧
      ∃ extra : List BaseGraph, (st.call this op).heap = st.heap ++ extra := by
  have hu : ∀ f : BaseGraph → BaseGraph, (st.update this f).vars[other]? = st.vars[other]? ∧
      ∃ extra : List BaseGraph, (st.update this f).heap = st.heap ++ extra := by
    intro f
    unfold Store.update
    cases hg : st.vars[this]? with
    | none => exact ⟨rfl, [], by simp⟩
    | some g => exact ⟨List.getElem?_set_ne (Ne.symm hne), [], by simp⟩
  cases op with
  | set_graph_attr k v => exact hu _
  | set_node_attr k v => exact hu _
  | set_edge_attr k v => exact hu _
  | set_comment c => exact hu _
  | node nm l a => exact hu _
  | edge t h a => exact hu _
  | edges ps a => exact hu _
  | subgraph sub =>
    simp only [Store.call, Store.subgraph]
    cases hs : st.vars[sub]? with
    | none => exact ⟨rfl, [], by simp⟩
    | some s =>
      cases ht : st.vars[this]? with
      | none => exact ⟨rfl, [], by simp⟩
      | some t => exact ⟨List.getElem?_set_ne (Ne.symm hne), [s], rfl⟩

theorem Store.calls_frame (this other : Nat) (ops : List Op) (hne : other ≠ this)
    (st : Store) :
    (st.calls this ops).vars[other]? = st.vars[other]? ∧
      ∃ extra : List BaseGraph, (st.calls this ops).heap = st.heap ++ extra := by
  induction ops generalizing st with
  | nil => exact ⟨rfl, [], by simp [Store.calls]⟩
  | cons op rest ih =>
    obtain ⟨h1, e1, h2⟩ := Store.call_frame st this other op hne
    obtain ⟨h3, e2, h4⟩ := ih (st.call this op)
    refine ⟨by rw [Store.calls, h3, h1], e1 ++ e2, ?_⟩
    rw [Store.calls, h4, h2, List.append_assoc]

/-- Graphs that were just constructed form a well-formed store. -/
theorem Store.wf_new (vars : List BaseGraph) (h : ∀ g ∈ vars, g.statements_ = []) :
    Store.wf ⟨vars, []⟩ := by
  refine ⟨fun g hg stmt hs => ?_, fun addr g hg => ?_⟩
  · rw [h g hg] at hs
    cases hs
  · simp at hg

end Mem

/-- C5: in a store built by the member functions, `p.subgraph(c)` for two different graphs `p`
    and `c` of the caller puts a copy of `c` on the heap and a statement with its address into
    `p`; after it `p.to_string()` returns a text, and it returns the same text after any
    sequence of calls of `set_graph_attr`, `set_node_attr`, `set_edge_attr`, `set_comment`,
    `node`, `edge`, `edges` and `subgraph` on `c`, whatever subgraphs `c` holds and shares with
    its copy. -/
theorem subgraph_isolation (st : Mem.Store) (p c : Nat) (ops : List Mem.Op) (hw : st.wf)
    (hp : p < st.vars.length) (hc : c < st.vars.length) (hpc : p ≠ c) :
    ((st.subgraph p c).heap = st.heap ++ [st.vars[c]] ∧
      (st.subgraph p c).vars[p]? =
        some (st.vars[p].push_back (Mem.Statement.Subgraph st.heap.length))) ∧
    (∃ t : Str, (st.subgraph p c).to_string p = some t) ∧
    ((st.subgraph p c).calls c ops).to_string p = (st.subgraph p c).to_string p := by
  refine ⟨?_, ?_⟩
  · simp only [Mem.Store.subgraph, List.getElem?_eq_getElem hp, List.getElem?_eq_getElem hc]
    simp [List.getElem?_set_self hp]
  have hw1 := Mem.Store.wf_subgraph st p c hw
  have hlen : (st.subgraph p c).vars.length = st.vars.length := by
    unfold Mem.Store.subgraph
    cases hs : st.vars[c]? with
    | none => rfl
    | some s =>
      cases ht : st.vars[p]? with
      | none => rfl
      | some t => simp
  have hp1 : p < (st.subgraph p c).vars.length := by rw [hlen]; exact hp
  have hg : (st.subgraph p c).vars[p]? = some (st.subgraph p c).vars[p] :=
    List.getElem?_eq_getElem hp1
  obtain ⟨t, ht⟩ := Mem.to_string_total (st.subgraph p c).heap hw1.2
    (st.subgraph p c).heap.length (Nat.le_refl _) (st.subgraph p c).vars[p]
    (hw1.1 _ (List.getElem?_mem hg)) 0
  have h1 : (st.subgraph p c).to_string p = some t := by
    simp only [Mem.Store.to_string, hg, ht]
  obtain ⟨hv, extra, hh⟩ := Mem.Store.calls_frame c p ops hpc (st.subgraph p c)
  refine ⟨⟨t, h1⟩, ?_⟩
  rw [h1]
  simp only [Mem.Store.to_string, hv, hg, hh]
  refine Mem.to_string_mono (st.subgraph p c).heap _ (fun addr g h => ?_) _ _ ?_ _ 0 t ht
  · have hlt : addr < (st.subgraph p c).heap.length := by
      by_contra hge
      rw [List.getElem?_eq_none (Nat.le_of_not_lt hge)] at h
      cases h
    rw [List.getElem?_append_left hlt]
    exact h
  · simp only [List.length_append]
    omega

/-- Witness of C5: `C` holds a copy of `D` when `P` takes a copy of `C`; `C` is then changed by
    every kind of call, `P` and `D` being passed to `subgraph` among them. -/
theorem subgraph_isolation_witness :
    (((Mem.three_graphs.subgraph 1 2).subgraph 0 1).calls 1
      [.set_comment "c".toList, .set_graph_attr "k".toList "v".toList,
        .set_node_attr "k".toList "v".toList, .set_edge_attr "k".toList "v".toList,
        .node "n".toList "l".toList [], .edge "a".toList "b".toList [],
        .edges [("a".toList, "b".toList)] [], .subgraph 0, .subgraph 1, .subgraph 2]).to_string
        0 =
      some ("digraph P \x7b\n    subgraph cluster_C \x7b\n        subgraph cluster_D \x7b\n" ++
        "        \x7d\n    \x7d\n\x7d\n").toList :=
  ((subgraph_isolation (Mem.three_graphs.subgraph 1 2) 0 1 _
    (Mem.Store.wf_subgraph _ 1 2 (Mem.Store.wf_new _ (by decide)))
    (by decide) (by decide) (by decide)).2.2).trans (by decide)

/-! ### Objects in memory and graph values -/

namespace Mem

theorem value_succ (heap : List BaseGraph) (fuel : Nat) (g : BaseGraph) :
    value heap (fuel + 1) g =
      match statements_value heap (value heap fuel) g.statements_ with
      | some l =>
        some (.mk g.graph_name_ g.strict_ g.directed_ g.comment_ g.graph_attr_ g.node_attr_
          g.edge_attr_ l)
      | none => none := rfl

theorem Statement.text_value (heap : List BaseGraph)
    (recur : BaseGraph → Nat → Option Str) (recv : BaseGraph → Option kgraphviz.BaseGraph)
    (hr : ∀ (g : BaseGraph) (n : Nat), recur g n = (recv g).map (fun t => t.to_string n))
    (stmt : Statement) (owner : BaseGraph) (owner2 : kgraphviz.BaseGraph)
    (ho : owner2.directed_ = owner.directed_) (n : Nat) :
    Statement.to_string heap recur stmt owner n =
      (Statement.value heap recv stmt).map (fun s => s.to_string owner2 n) := by
  cases stmt with
  | RawLine raw => simp [Statement.to_string, Statement.value, kgraphviz.Statement.to_string]
  | Node a b => simp [Statement.to_string, Statement.value, kgraphviz.Statement.to_string]
  | Edge a b c =>
    simp [Statement.to_string, Statement.value, kgraphviz.Statement.to_string, ho]
  | Subgraph addr =>
    simp only [Statement.to_string, Statement.value]
    cases hg : heap[addr]? with
    | none => rfl
    | some g =>
      simp only [hr g n]
      cases recv g <;> simp [kgraphviz.Statement.to_string]

theorem statements_to_string_value (heap : List BaseGraph)
    (recur : BaseGraph → Nat → Option Str) (recv : BaseGraph → Option kgraphviz.BaseGraph)
    (hr : ∀ (g : BaseGraph) (n : Nat), recur g n = (recv g).map (fun t => t.to_string n))
    (l : List Statement) (owner : BaseGraph) (owner2 : kgraphviz.BaseGraph)
    (ho : owner2.directed_ = owner.directed_) (n : Nat) :
    statements_to_string heap recur l owner n =
      (statements_value heap recv l).map
        (fun l2 => kgraphviz.statements_to_string l2 owner2 n) := by
  induction l with
  | nil => simp [statements_to_string, statements_value, kgraphviz.statements_to_string]
  | cons stmt rest ih =>
    simp only [statements_to_string, statements_value]
    rw [Statement.text_value heap recur recv hr stmt owner owner2 ho n, ih]
    cases Statement.value heap recv stmt <;> cases statements_value heap recv rest <;>
      simp [kgraphviz.statements_to_string]

/-- The text that `to_string` returns for an object in memory is the text of the graph value
    that the object stands for. -/
theorem to_string_value (heap : List BaseGraph) (fuel : Nat) (g : BaseGraph) (n : Nat) :
    to_string heap fuel g n = (value heap fuel g).map (fun t => t.to_string n) := by
  induction fuel generalizing g n with
  | zero => rfl
  | succ k ih =>
    rw [to_string_succ, value_succ]
    cases hv : statements_value heap (value heap k) g.statements_ with
    | none =>
      rw [statements_to_string_value heap (to_string heap k) (value heap k) ih g.statements_ g
        (kgraphviz.BaseGraph.new [] false g.directed_) rfl (n + 1), hv]
      rfl
    | some l =>
      rw [statements_to_string_value heap (to_string heap k) (value heap k) ih g.statements_ g
        (.mk g.graph_name_ g.strict_ g.directed_ g.comment_ g.graph_attr_ g.node_attr_
          g.edge_attr_ l) rfl (n + 1), hv]
      simp [kgraphviz.BaseGraph.to_string]

end Mem

/-! ### Identifier escaping is injective -/

/-- The escaped characters of an identifier. -/
theorem escape_id_eq_quoted (id : Str) (h : id = [] ∨ need_escape id = true) :
    escape_id id = quoted id := by
  rcases h with h | h
  · subst h; rfl
  · exact escape_id_of_need_escape id h

theorem escape_id_eq_self (id : Str) (h1 : id ≠ []) (h2 : need_escape id = false) :
    escape_id id = id := by
  cases id with
  | nil => exact absurd rfl h1
  | cons a as => simp [escape_id, h2]

/-- The escaped text of an identifier does not start with a double quote. -/
theorem escaped_head (x t : Str) :
    x.flatMap (fun c => if c = dquote then [backslash, dquote] else [c]) ≠ dquote :: t := by
  cases x with
  | nil => simp
  | cons c rest =>
    by_cases hc : c = dquote
    · simp only [List.flatMap_cons, hc, if_true]
      intro h
      injection h with h1 _
      revert h1
      decide
    · simp only [List.flatMap_cons, hc, if_false]
      intro h
      injection h with h1 _
      exact hc h1

/-- The escaped text determines the identifier. -/
theorem escaped_injective (a b : Str)
    (h : a.flatMap (fun c => if c = dquote then [backslash, dquote] else [c]) =
      b.flatMap (fun c => if c = dquote then [backslash, dquote] else [c])) : a = b := by
  induction a generalizing b with
  | nil =>
    cases b with
    | nil => rfl
    | cons y ys =>
      by_cases hy : y = dquote <;> simp [hy] at h
  | cons x xs ih =>
    cases b with
    | nil => by_cases hx : x = dquote <;> simp [hx] at h
    | cons y ys =>
      by_cases hx : x = dquote <;> by_cases hy : y = dquote
      · simp only [List.flatMap_cons, hx, hy, if_true, List.cons_append, List.nil_append,
          List.cons.injEq, true_and] at h
        rw [hx, hy, ih ys h]
      · simp only [List.flatMap_cons, hx, hy, if_true, if_false, List.cons_append,
          List.nil_append, List.cons.injEq] at h
        exact absurd h.2.symm (escaped_head ys _)
      · simp only [List.flatMap_cons, hx, hy, if_true, if_false, List.cons_append,
          List.nil_append, List.cons.injEq] at h
        exact absurd h.2 (escaped_head xs _)
      · simp only [List.flatMap_cons, hx, hy, if_false, List.cons_append, List.nil_append,
          List.cons.injEq] at h
        rw [h.1, ih ys h.2]

theorem quoted_injective (a b : Str) (h : quoted a = quoted b) : a = b := by
  unfold quoted at h
  simp only [List.singleton_append, List.cons_append, List.cons.injEq, true_and] at h
  exact escaped_injective a b (List.append_cancel_right h)

/-- An identifier that is written unquoted is not the quoted form of any identifier. -/
theorem quoted_ne_plain (a b : Str) (hb : need_escape b = false) : quoted a ≠ b := by
  intro h
  rw [← h] at hb
  simp [quoted, need_escape, isalnum, dquote] at hb

/-- C18: `escape_id` is injective, so two different names, keys or values are never written
    as the same token. -/
theorem escape_id_injective :
    Function.Injective escape_id ∧ ∀ a b : Str, a ≠ b → escape_id a ≠ escape_id b := by
  have hinj : Function.Injective escape_id := by
    intro a b h
    by_cases ha : a = [] ∨ need_escape a = true
    · rw [escape_id_eq_quoted a ha] at h
      by_cases hb : b = [] ∨ need_escape b = true
      · rw [escape_id_eq_quoted b hb] at h
        exact quoted_injective a b h
      · have hb1 : b ≠ [] := fun hh => hb (Or.inl hh)
        have hb2 : need_escape b = false := by
          cases hn : need_escape b with
          | false => rfl
          | true => exact absurd (Or.inr hn) hb
        rw [escape_id_eq_self b hb1 hb2] at h
        exact absurd h (quoted_ne_plain a b hb2)
    · have ha1 : a ≠ [] := fun hh => ha (Or.inl hh)
      have ha2 : need_escape a = false := by
        cases hn : need_escape a with
        | false => rfl
        | true => exact absurd (Or.inr hn) ha
      rw [escape_id_eq_self a ha1 ha2] at h
      by_cases hb : b = [] ∨ need_escape b = true
      · rw [escape_id_eq_quoted b hb] at h
        exact absurd h.symm (quoted_ne_plain b a ha2)
      · have hb1 : b ≠ [] := fun hh => hb (Or.inl hh)
        have hb2 : need_escape b = false := by
          cases hn : need_escape b with
          | false => rfl
          | true => exact absurd (Or.inr hn) hb
        rw [escape_id_eq_self b hb1 hb2] at h
        exact h
  exact ⟨hinj, fun a b hab h => hab (hinj h)⟩

/-- Witness of C18: a backslash followed by a quote, and a quote alone. -/
theorem escape_id_injective_witness :
    escape_id [backslash, dquote] ≠ escape_id [dquote] :=
  escape_id_injective.2 [backslash, dquote] [dquote] (by decide)

/-! ### Attribute maps: order of insertion -/

theorem str_lt_asymm (a b : Str) (h : str_lt a b = true) : str_lt b a = false := by
  cases h2 : str_lt b a with
  | false => rfl
  | true =>
    have := str_lt_trans a b a h h2
    rw [str_lt_irrefl] at this
    cases this

/-- Two strings are equal or one is smaller than the other. -/
theorem str_lt_cases (a b : Str) :
    (str_lt a b = true ∧ str_lt b a = false) ∨ a = b ∨
      (str_lt a b = false ∧ str_lt b a = true) := by
  cases h1 : str_lt a b with
  | true => exact Or.inl ⟨rfl, str_lt_asymm a b h1⟩
  | false =>
    cases h2 : str_lt b a with
    | true => exact Or.inr (Or.inr ⟨rfl, rfl⟩)
    | false => exact Or.inr (Or.inl (str_lt_total a b h1 h2))

/-- The loop of `format_attrs` appends the entries, each after the first with a separator. -/
theorem format_attrs_loop_eq (oss : Str) (first : Bool) (attrs : AttrMap) :
    format_attrs_loop oss first attrs =
      oss ++ (if first then attrs_text attrs
        else attrs.flatMap (fun kv =>
          ", ".toList ++ (escape_id kv.1 ++ "=".toList ++ escape_id kv.2))) := by
  induction attrs generalizing oss first with
  | nil => cases first <;> simp [format_attrs_loop, attrs_text, List.intercalate]
  | cons kv rest ih =>
    have hi : ∀ (x : Str) (l : List Str),
        List.intercalate ", ".toList (x :: l) =
          x ++ l.flatMap (fun y => ", ".toList ++ y) := by
      intro x l
      induction l generalizing x with
      | nil => simp [List.intercalate]
      | cons y ys ih2 =>
        have := ih2 y
        simp only [List.intercalate, List.intersperse, List.flatten_cons, List.flatMap_cons] at this ⊢
        rw [this]
        simp
    rw [format_attrs_loop, ih]
    cases first
    · simp [List.flatMap_cons, List.append_assoc]
    · simp only [Bool.not_true, Bool.false_eq_true, if_false, if_true, attrs_text, List.map_cons]
      rw [hi]
      simp [List.flatMap_map, List.append_assoc, List.flatMap, Function.comp_def]

/-- The function `format_attrs` writes the specification's text of the map. -/
theorem format_attrs_eq (attrs : AttrMap) : format_attrs attrs = attrs_text attrs := by
  rw [format_attrs, format_attrs_loop_eq]
  simp

/-- Assigning twice to one key leaves the second value. -/
theorem AttrMap.set_set (m : AttrMap) (key v1 v2 : Str) :
    (m.set key v1).set key v2 = m.set key v2 := by
  induction m with
  | nil => simp [AttrMap.set, str_lt_irrefl]
  | cons kv rest ih =>
    obtain ⟨k, v⟩ := kv
    cases h1 : str_lt key k with
    | true => simp [AttrMap.set, h1, str_lt_irrefl]
    | false =>
      cases h2 : str_lt k key with
      | true => simp [AttrMap.set, h1, h2, ih]
      | false => simp [AttrMap.set, h1, h2]

/-- Assignments to two different keys give the same map in either order. -/
theorem AttrMap.set_comm (m : AttrMap) (k1 v1 k2 v2 : Str) (hne : k1 ≠ k2) :
    (m.set k1 v1).set k2 v2 = (m.set k2 v2).set k1 v1 := by
  induction m with
  | nil =>
    rcases str_lt_cases k1 k2 with ⟨h1, h2⟩ | h | ⟨h1, h2⟩
    · simp [AttrMap.set, h1, h2]
    · exact absurd h hne
    · simp [AttrMap.set, h1, h2]
  | cons kv rest ih =>
    obtain ⟨k, v⟩ := kv
    rcases str_lt_cases k1 k with ⟨a1, a2⟩ | a | ⟨a1, a2⟩
    · rcases str_lt_cases k2 k with ⟨b1, b2⟩ | b | ⟨b1, b2⟩
      · rcases str_lt_cases k1 k2 with ⟨c1, c2⟩ | c | ⟨c1, c2⟩
        · simp [AttrMap.set, a1, a2, b1, b2, c1, c2]
        · exact absurd c hne
        · simp [AttrMap.set, a1, a2, b1, b2, c1, c2]
      · subst b
        simp [AttrMap.set, a1, a2, str_lt_irrefl]
      · have c1 : str_lt k1 k2 = true := str_lt_trans _ _ _ a1 b2
        have c2 := str_lt_asymm _ _ c1
        simp [AttrMap.set, a1, a2, b1, b2, c1, c2]
    · subst a
      rcases str_lt_cases k2 k1 with ⟨b1, b2⟩ | b | ⟨b1, b2⟩
      · simp [AttrMap.set, b1, b2, str_lt_irrefl]
      · exact absurd b.symm hne
      · simp [AttrMap.set, b1, b2, str_lt_irrefl]
    · rcases str_lt_cases k2 k with ⟨b1, b2⟩ | b | ⟨b1, b2⟩
      · have c1 : str_lt k2 k1 = true := str_lt_trans _ _ _ b1 a2
        have c2 := str_lt_asymm _ _ c1
        simp [AttrMap.set, a1, a2, b1, b2, c1, c2]
      · subst b
        simp [AttrMap.set, a1, a2, str_lt_irrefl]
      · simp [AttrMap.set, a1, a2, b1, b2, ih]

/-! ### Statements in insertion order -/

theorem statements_to_string_eq_flatMap (l : List Statement) (o : BaseGraph) (n : Nat) :
    statements_to_string l o n = l.flatMap (fun s => s.to_string o n) := by
  induction l with
  | nil => rfl
  | cons s rest ih => simp [statements_to_string, ih]

/-- The text of a node statement is the specification's. -/
theorem Statement.to_string_node (owner : BaseGraph) (name : Str) (attrs : AttrMap) (n : Nat) :
    (Statement.Node name attrs).to_string owner n = node_text n name attrs := by
  cases attrs <;> simp [Statement.to_string, node_text, attr_suffix]

/-- The call `edges` pushes one edge statement per pair, in list order. -/
theorem BaseGraph.edges_eq (pairs : List (Str × Str)) (attrs : AttrMap) (g : BaseGraph) :
    g.edges pairs attrs = pairs.foldl (fun acc p => acc.edge p.1 p.2 attrs) g ∧
    (g.edges pairs attrs).statements_ =
      g.statements_ ++ pairs.map (fun p => Statement.Edge p.1 p.2 attrs) := by
  induction pairs generalizing g with
  | nil => simp [BaseGraph.edges]
  | cons p rest ih =>
    obtain ⟨h1, h2⟩ := ih (g.edge p.1 p.2 attrs)
    refine ⟨by simp [BaseGraph.edges, h1], ?_⟩
    rw [BaseGraph.edges, h2]
    cases g
    simp [BaseGraph.edge, BaseGraph.push_back, BaseGraph.statements_]

/-- C15: after `node`, `edge` or `subgraph` the text is the text before the call with the text
    of the new statement put before the closing line and nothing else changed; the text between
    the opening part and the closing line is the texts of the statements in the order of
    `statements_`; `edges` is `edge` for each pair in turn and appends one edge statement per
    pair in list order. -/
theorem statements_in_order (g sub : BaseGraph) (name label tail head : Str) (attrs : AttrMap)
    (pairs : List (Str × Str)) (n : Nat) :
    (∃ pre : Str, g.to_string n = pre ++ (indent n ++ "\x7d\n".toList) ∧
      (g.node name label attrs).to_string n =
        pre ++ node_text (n + 1) name (if label = [] then attrs else attrs.set "label".toList label)
          ++ (indent n ++ "\x7d\n".toList) ∧
      (g.edge tail head attrs).to_string n =
        pre ++ edge_text g.directed_ (n + 1) tail head attrs ++ (indent n ++ "\x7d\n".toList) ∧
      (g.subgraph sub).to_string n =
        pre ++ sub.to_string (n + 1) ++ (indent n ++ "\x7d\n".toList)) ∧
    (∃ opening : Str,
      g.to_string n = opening ++ g.statements_.flatMap (fun s => s.to_string g (n + 1)) ++
        (indent n ++ "\x7d\n".toList) ∧
      (BaseGraph.mk g.graph_name_ g.strict_ g.directed_ g.comment_ g.graph_attr_ g.node_attr_
        g.edge_attr_ []).to_string n = opening ++ (indent n ++ "\x7d\n".toList)) ∧
    g.edges pairs attrs = pairs.foldl (fun acc p => acc.edge p.1 p.2 attrs) g ∧
    (g.edges pairs attrs).statements_ =
      g.statements_ ++ pairs.map (fun p => Statement.Edge p.1 p.2 attrs) := by
  refine ⟨?_, ?_, BaseGraph.edges_eq pairs attrs g⟩
  · obtain ⟨pre, h0, h1⟩ := BaseGraph.to_string_push_back g
      (Statement.Node name (BaseGraph.merged label attrs)) n
    obtain ⟨pre2, h2, h3⟩ := BaseGraph.to_string_push_back g (Statement.Edge tail head attrs) n
    obtain ⟨pre3, h4, h5⟩ := BaseGraph.to_string_push_back g (Statement.Subgraph sub) n
    have e2 : pre2 = pre := List.append_cancel_right (h2.symm.trans h0)
    have e3 : pre3 = pre := List.append_cancel_right (h4.symm.trans h0)
    subst e2 e3
    refine ⟨pre3, h0, ?_, ?_, ?_⟩
    · rw [BaseGraph.node, h1, Statement.to_string_node]
      cases label <;> simp [BaseGraph.merged]
    · rw [BaseGraph.edge, h3, Statement.to_string_edge]
    · rw [BaseGraph.subgraph, h5, Statement.to_string]
  · cases g with
    | mk nm st d c ga na ea l =>
      refine ⟨comment_line c n ++ header st d nm n ++
        attr_block (indent n) "graph".toList ga ++ attr_block (indent n) "node".toList na ++
        attr_block (indent n) "edge".toList ea, ?_, ?_⟩
      · simp [BaseGraph.to_string, statements_to_string_eq_flatMap, BaseGraph.statements_]
      · simp [BaseGraph.to_string, statements_to_string, BaseGraph.graph_name_,
          BaseGraph.strict_, BaseGraph.directed_, BaseGraph.comment_, BaseGraph.graph_attr_,
          BaseGraph.node_attr_, BaseGraph.edge_attr_]

/-- Three statements come out in the order of the calls. -/
theorem statements_in_order_example :
    ((((DiGraph "DG".toList false).node "b".toList [] []).edges
        [("b".toList, "a".toList), ("a".toList, "c".toList)] []).node "a".toList [] []).to_string
        0 =
      "digraph DG \x7b\n    b;\n    b -> a;\n    a -> c;\n    a;\n\x7d\n".toList := by
  decide

/-! ### Nested subgraph header -/

/-- The name written in a subgraph header: quoted exactly when the graph name has a character
    that is not an identifier character. -/
theorem escape_id_cluster (name : Str) :
    escape_id ("cluster_".toList ++ name) =
      if ∀ ch ∈ name, isIdentChar ch = true then "cluster_".toList ++ name
      else quoted ("cluster_".toList ++ name) := by
  have hc : ∀ ch ∈ "cluster_".toList, isIdentChar ch = true := by decide
  by_cases h : ∀ ch ∈ name, isIdentChar ch = true
  · rw [if_pos h]
    refine escape_id_eq_self _ (by simp) ((need_escape_eq_false _).mpr ?_)
    intro ch hch
    rcases List.mem_append.mp hch with h1 | h1
    · exact hc ch h1
    · exact h ch h1
  · rw [if_neg h]
    refine escape_id_eq_quoted _ (Or.inr ?_)
    cases hn : need_escape ("cluster_".toList ++ name) with
    | true => rfl
    | false =>
      exfalso
      exact h (fun ch hch =>
        (need_escape_eq_false _).mp hn ch (List.mem_append.mpr (Or.inr hch)))

/-- Counterexample to C13 as stated: the header of a subgraph named `s` is written without
    double quotes. -/
theorem subgraph_header_unquoted :
    ((Graph "G".toList false).subgraph (Graph "s".toList false)).to_string 0 =
      "graph G \x7b\n    subgraph cluster_s \x7b\n    \x7d\n\x7d\n".toList ∧
    ¬ ∃ pre post : Str,
      ((Graph "G".toList false).subgraph (Graph "s".toList false)).to_string 0 =
        pre ++ (indent 1 ++ "subgraph \"cluster_s\" \x7b\n".toList) ++ post := by
  refine ⟨by decide, ?_⟩
  rintro ⟨pre, post, h⟩
  have hq : dquote ∈ ((Graph "G".toList false).subgraph (Graph "s".toList false)).to_string 0 := by
    rw [h]
    refine List.mem_append.mpr (Or.inl (List.mem_append.mpr (Or.inr ?_)))
    refine List.mem_append.mpr (Or.inr ?_)
    decide
  revert hq
  decide

/-- C13, amended: a subgraph added to a parent is written, before the closing line of the
    parent, as a block whose header line is the indentation, `subgraph `, the name
    `cluster_<n>` and an opening brace, and whose last line is the same indentation and a
    closing brace; the name is enclosed in double quotes (with its double quotes escaped)
    exactly when `n` has a character other than a letter, digit or underscore, and is written
    without quotes otherwise. -/
theorem subgraph_header (p c : BaseGraph) (n : Nat) :
    ∃ pre body : Str, p.to_string n = pre ++ (indent n ++ "\x7d\n".toList) ∧
      (p.subgraph c).to_string n =
        pre ++ (indent (n + 1) ++ "subgraph ".toList ++
          (if ∀ ch ∈ c.graph_name_, isIdentChar ch = true then "cluster_".toList ++ c.graph_name_
            else quoted ("cluster_".toList ++ c.graph_name_)) ++ " \x7b\n".toList ++
          body ++ (indent (n + 1) ++ "\x7d\n".toList)) ++ (indent n ++ "\x7d\n".toList) := by
  obtain ⟨pre, h1, h2⟩ := BaseGraph.to_string_push_back p (Statement.Subgraph c) n
  cases c with
  | mk nm st d cm ga na ea l =>
    refine ⟨pre, attr_block (indent (n + 1)) "graph".toList ga ++
      attr_block (indent (n + 1)) "node".toList na ++
      attr_block (indent (n + 1)) "edge".toList ea ++
      statements_to_string l (BaseGraph.mk nm st d cm ga na ea l) (n + 1 + 1), h1, ?_⟩
    rw [BaseGraph.subgraph, h2, Statement.to_string, ← escape_id_cluster]
    simp [BaseGraph.to_string, comment_line, header, BaseGraph.graph_name_]

/-! ### Default-attribute blocks -/

theorem attr_block_eq (n : Nat) (kw : Str) (attrs : AttrMap) :
    attr_block (indent n) kw attrs = block_text n kw attrs := by
  cases attrs <;> simp [attr_block, block_text]

/-- The escaped form of an identifier has a newline only if the identifier has one. -/
theorem newline_not_mem_escape_id (id : Str) (h : newline ∉ id) : newline ∉ escape_id id := by
  by_cases hq : id = [] ∨ need_escape id = true
  · rw [escape_id_eq_quoted id hq, quoted]
    intro hm
    simp only [List.mem_append, List.mem_singleton, List.mem_flatMap] at hm
    rcases hm with (hm | ⟨c, hc, hm⟩) | hm
    · revert hm; decide
    · by_cases hd : c = dquote
      · rw [if_pos hd] at hm
        simp only [List.mem_cons, List.mem_singleton, List.not_mem_nil, or_false] at hm
        rcases hm with hm | hm <;> revert hm <;> decide
      · rw [if_neg hd] at hm
        simp only [List.mem_singleton] at hm
        exact h (hm ▸ hc)
    · revert hm; decide
  · have h1 : id ≠ [] := fun hh => hq (Or.inl hh)
    have h2 : need_escape id = false := by
      cases hn : need_escape id with
      | false => rfl
      | true => exact absurd (Or.inr hn) hq
    rw [escape_id_eq_self id h1 h2]
    exact h

theorem newline_not_mem_format_attrs_loop (attrs : AttrMap)
    (h : ∀ kv ∈ attrs, newline ∉ kv.1 ∧ newline ∉ kv.2) (oss : Str) (first : Bool)
    (ho : newline ∉ oss) : newline ∉ format_attrs_loop oss first attrs := by
  induction attrs generalizing oss first with
  | nil => exact ho
  | cons kv rest ih =>
    rw [format_attrs_loop]
    refine ih (fun kv2 h2 => h kv2 (List.mem_cons_of_mem _ h2)) _ false ?_
    have hk := newline_not_mem_escape_id kv.1 (h kv (List.mem_cons_self _ _)).1
    have hv := newline_not_mem_escape_id kv.2 (h kv (List.mem_cons_self _ _)).2
    have hs : newline ∉ ", ".toList := by decide
    have he : newline ∉ "=".toList := by decide
    cases first
    · simp only [Bool.not_false, if_true, List.mem_append, not_or]
      exact ⟨⟨⟨⟨ho, hs⟩, hk⟩, he⟩, hv⟩
    · simp only [Bool.not_true, Bool.false_eq_true, if_false, List.mem_append, not_or]
      exact ⟨⟨⟨ho, hk⟩, he⟩, hv⟩

/-- A block has no newline before its last character when no key or value has one. -/
theorem newline_not_mem_block (n : Nat) (kw : Str) (attrs : AttrMap) (hk : newline ∉ kw)
    (h : ∀ kv ∈ attrs, newline ∉ kv.1 ∧ newline ∉ kv.2) :
    newline ∉ indent n ++ "    ".toList ++ kw ++ " [".toList ++ format_attrs attrs ++
      "];".toList := by
  have h1 : newline ∉ indent n := by
    intro hm
    have := List.eq_of_mem_replicate hm
    revert this
    decide
  have h2 := newline_not_mem_format_attrs_loop attrs h [] true (by simp)
  have h3 : newline ∉ "    ".toList := by decide
  have h4 : newline ∉ " [".toList := by decide
  have h5 : newline ∉ "];".toList := by decide
  simp only [List.mem_append, not_or]
  exact ⟨⟨⟨⟨⟨h1, h3⟩, hk⟩, h4⟩, h2⟩, h5⟩

/-- Counterexample to C16 as stated: a value with a newline makes the block span two lines. -/
theorem attr_block_two_lines :
    ((Graph "G".toList false).set_graph_attr "label".toList "a\nb".toList).to_string 0 =
      "graph G \x7b\n    graph [label=\"a\nb\"];\n\x7d\n".toList ∧
    newline ∈ "    graph [".toList ++ format_attrs [("label".toList, "a\nb".toList)] ++
      "]".toList := by
  constructor <;> decide

/-- C16, amended: `to_string` writes, directly after the comment line and header and before
    every statement, the `graph`, `node` and `edge` blocks in this order, each present exactly
    when its map is not empty, as the indentation, the keyword, the bracketed text of the map, a
    semicolon and a newline; a block has no other newline, so it is one line, whenever no key or
    value of its map has a newline character. -/
theorem default_attr_blocks (g : BaseGraph) (n : Nat) :
    (∃ opening : Str,
      (BaseGraph.mk g.graph_name_ g.strict_ g.directed_ g.comment_ [] [] [] []).to_string n =
        opening ++ (indent n ++ "\x7d\n".toList) ∧
      g.to_string n = opening ++ block_text n "graph".toList g.graph_attr_ ++
        block_text n "node".toList g.node_attr_ ++ block_text n "edge".toList g.edge_attr_ ++
        g.statements_.flatMap (fun s => s.to_string g (n + 1)) ++
        (indent n ++ "\x7d\n".toList)) ∧
    (∀ (kw : Str) (attrs : AttrMap), block_text n kw attrs = [] ↔ attrs = []) ∧
    ∀ (kw : Str) (attrs : AttrMap), attrs ≠ [] → newline ∉ kw →
      (∀ kv ∈ attrs, newline ∉ kv.1 ∧ newline ∉ kv.2) →
      ∃ line : Str, block_text n kw attrs = line ++ [newline] ∧ newline ∉ line := by
  refine ⟨?_, ?_, ?_⟩
  · cases g with
    | mk nm st d c ga na ea l =>
      refine ⟨comment_line c n ++ header st d nm n, ?_, ?_⟩
      · simp [BaseGraph.to_string, statements_to_string, attr_block, BaseGraph.graph_name_,
          BaseGraph.strict_, BaseGraph.directed_, BaseGraph.comment_]
      · simp [BaseGraph.to_string, statements_to_string_eq_flatMap, attr_block_eq,
          BaseGraph.statements_, BaseGraph.graph_attr_, BaseGraph.node_attr_,
          BaseGraph.edge_attr_]
  · intro kw attrs
    cases attrs <;> simp [block_text]
  · intro kw attrs ha hk h
    refine ⟨indent n ++ "    ".toList ++ kw ++ " [".toList ++ format_attrs attrs ++ "];".toList,
      ?_, newline_not_mem_block n kw attrs hk h⟩
    rw [block_text, if_neg ha]
    simp [newline]

/-- Witness of C16: a node-level map with two entries is written as one line. -/
theorem default_attr_blocks_witness :
    ∃ line : Str,
      block_text 0 "node".toList [("color".toList, "red".toList), ("shape".toList, "box".toList)]
        = line ++ [newline] ∧ newline ∉ line :=
  (default_attr_blocks (Graph "G".toList false) 0).2.2 "node".toList
    [("color".toList, "red".toList), ("shape".toList, "box".toList)] (by decide) (by decide)
    (by decide)

/-! ### Renderer: exit codes -/

theorem deduce_format_quiet (filename fmt : Str) (options options1 : RenderOptions)
    (h : deduce_format filename options = .ok (fmt, options1)) :
    options1.quiet = options.quiet := by
  unfold deduce_format at h
  simp only at h
  split at h
  · split at h
    · cases h
    · injection h with h2
      injection h2 with _ h3
      rw [← h3]
      rfl
  · injection h with h2
    injection h2 with _ h3
    rw [← h3]

theorem set_format_self (options : RenderOptions) :
    options.set_format options.format = options := by
  cases options
  rfl

/-- The options that `deduce_format` leaves behind hold the output format. -/
theorem deduce_format_eq (filename : Str) (options : RenderOptions) :
    deduce_format filename options =
      if effective_format filename options = [] then
        .error (.RequiredArgumentError
          "format must be set either via options or output filename".toList)
      else .ok (effective_format filename options,
        options.set_format (effective_format filename options)) := by
  unfold effective_format
  by_cases hf : options.format = []
  · by_cases hg : get_format_from_filename filename = []
    · simp [deduce_format, hf, hg]
    · rw [if_pos hf, if_neg hg, deduce_format_of_empty filename _ options hf rfl hg]
  · rw [if_neg hf, if_neg hf, deduce_format_of_nonempty filename options hf, set_format_self]

/-- The command line built for the options with the output format in place. -/
theorem build_command_effective (input_file output_file : Str) (options : RenderOptions)
    (use_stdin to_stdout : Bool) (h : effective_format output_file options ≠ []) :
    build_command input_file output_file
        (options.set_format (effective_format output_file options)) to_stdout use_stdin =
      .ok (executed_command options input_file output_file use_stdin to_stdout) :=
  build_command_eq input_file output_file _ to_stdout use_stdin h

theorem effective_format_nil (options : RenderOptions) :
    effective_format [] options = options.format := by
  unfold effective_format
  by_cases hf : options.format = []
  · rw [if_pos hf, hf]
    rfl
  · rw [if_neg hf]

/-- C11: with the process executor as a field of the host, each of the four render entry
    points whose validation passes raises RequiredArgumentError without executing a command
    exactly when no output format is given or can be taken from the output path (or, for
    `render_from_string`, the output file name is empty); otherwise it executes the one command
    line built for that format and raises CalledProcessError exactly when the exit code is not
    zero, with the exit code as `returncode`, the executed command line as `command`, and as
    `stderr_output` the captured standard error, or the empty string when `options.quiet` is
    set. -/
theorem exit_code_translation (host : Host) (input_file output_file dot_source : Str)
    (options : RenderOptions) :
    (validate_options host options input_file output_file = .ok () →
      render host input_file output_file options =
        if effective_format output_file options = [] then
          ⟨[], .error (.RequiredArgumentError
            "format must be set either via options or output filename".toList)⟩
        else translated_outcome host
          (executed_command options input_file output_file false false) none options.quiet
          (fun r => r.stdout_output) (fun _ => ())) ∧
    (validate_options host options input_file [] = .ok () →
      render_to_memory host input_file options =
        if options.format = [] then ⟨[], .error (.RequiredArgumentError "format".toList)⟩
        else translated_outcome host (executed_command options input_file [] false true) none
          options.quiet (fun _ => "<ignored>".toList) (fun r => r.stdout_output)) ∧
    (validate_options host options [] output_file = .ok () →
      render_from_string host dot_source output_file options =
        if output_file = [] then
          ⟨[], .error (.RequiredArgumentError "output_file (required)".toList)⟩
        else if effective_format output_file options = [] then
          ⟨[], .error (.RequiredArgumentError
            "format must be set either via options or output filename".toList)⟩
        else translated_outcome host (executed_command options [] output_file true false)
          (some dot_source) options.quiet (fun _ => "<ignored>".toList) (fun _ => ())) ∧
    (validate_options host options [] [] = .ok () →
      render_from_string_to_memory host dot_source options =
        if options.format = [] then ⟨[], .error (.RequiredArgumentError "format".toList)⟩
        else translated_outcome host (executed_command options [] [] true true)
          (some dot_source) options.quiet (fun _ => "<ignored>".toList)
          (fun r => r.stdout_output)) ∧
    ∀ (r : ProcessResult) (cmd stdout_output : Str) (quiet : Bool),
      translate_exit r cmd quiet stdout_output () =
        if r.exit_code = 0 then .ok ()
        else .error (.CalledProcessError r.exit_code cmd stdout_output
          (if quiet then [] else r.stderr_output)) := by
  have hmem : ∀ (i : Str) (use_stdin : Bool), options.format ≠ [] →
      build_command i [] options true use_stdin =
        .ok (executed_command options i [] use_stdin true) := by
    intro i use_stdin hf
    have h := build_command_effective i [] options use_stdin true
      (by rw [effective_format_nil]; exact hf)
    rw [effective_format_nil, set_format_self] at h
    exact h
  have hnone : ∀ (i : Str) (use_stdin : Bool), options.format = [] →
      build_command i [] options true use_stdin =
        .error (.RequiredArgumentError "format".toList) := by
    intro i use_stdin hf
    simp [build_command, hf]
  refine ⟨fun hv => ?_, fun hv => ?_, fun hv => ?_, fun hv => ?_, fun r cmd so q => ?_⟩
  · simp only [render, hv, deduce_format_eq]
    by_cases he : effective_format output_file options = []
    · simp only [he, if_true]
    · simp only [he, if_false, build_command_effective input_file output_file options false
        false he]
      simp only [translated_outcome, translate_exit, RenderOptions.set_format]
      split <;> rfl
  · simp only [render_to_memory, hv]
    by_cases hf : options.format = []
    · simp only [hnone input_file false hf, hf, if_true]
    · simp only [hmem input_file false hf, hf, if_false]
      simp only [translated_outcome, translate_exit]
      split <;> rfl
  · by_cases ho : output_file = []
    · subst ho
      simp only [render_from_string, hv, List.isEmpty_nil, if_true]
    · have hoe : output_file.isEmpty = false := by
        cases output_file with
        | nil => exact absurd rfl ho
        | cons a as => rfl
      simp only [render_from_string, hv, hoe, Bool.false_eq_true, if_false, ho,
        deduce_format_eq]
      by_cases he : effective_format output_file options = []
      · simp only [he, if_true]
      · simp only [he, if_false, build_command_effective [] output_file options true
          false he]
        simp only [translated_outcome, translate_exit, RenderOptions.set_format]
        split <;> rfl
  · simp only [render_from_string_to_memory, hv]
    by_cases hf : options.format = []
    · simp only [hnone [] true hf, hf, if_true]
    · simp only [hmem [] true hf, hf, if_false]
      simp only [translated_outcome, translate_exit]
      split <;> rfl
  · unfold translate_exit
    by_cases h0 : r.exit_code = 0
    · simp [h0]
    · simp [h0]

/-- Witness of C11: an engine that exits with 1; with `quiet` the error carries no standard
    error text. -/
theorem exit_code_translation_witness :
    render host_failing "in.gv".toList "out.svg".toList {} =
      ⟨[("dot -Tsvg \"in.gv\" -o \"out.svg\"".toList, none)],
        .error (.CalledProcessError 1 "dot -Tsvg \"in.gv\" -o \"out.svg\"".toList
          "out".toList "err".toList)⟩ ∧
    render_from_string_to_memory host_failing "graph G \x7b\x7d".toList
        { format := "png".toList, quiet := true } =
      ⟨[("dot -Tpng".toList, some "graph G \x7b\x7d".toList)],
        .error (.CalledProcessError 1 "dot -Tpng".toList "<ignored>".toList [])⟩ :=
  ⟨((exit_code_translation host_failing "in.gv".toList "out.svg".toList [] {}).1 rfl).trans
      rfl,
    ((exit_code_translation host_failing [] [] "graph G \x7b\x7d".toList
      { format := "png".toList, quiet := true }).2.2.2.1 rfl).trans rfl⟩

/-! ### Well-formed DOT text -/

theorem scan_append (s : Option Scan) (a b : Str) : scan s (a ++ b) = scan (scan s a) b := by
  simp [scan, List.foldl_append]

theorem neutral_append (a b : Str) (ha : neutral a) (hb : neutral b) : neutral (a ++ b) := by
  intro d k
  rw [scan_append, ha, hb]

theorem neutral_inside_append (a b : Str) (ha : neutral_inside a) (hb : neutral_inside b) :
    neutral_inside (a ++ b) := by
  intro d k
  rw [scan_append, ha, hb]

theorem neutral_inside_of_neutral (a : Str) (ha : neutral a) : neutral_inside a :=
  fun d k => ha (d + 1) k

theorem neutral_nil : neutral [] := fun _ _ => rfl

/-- A text without double quote and brace is neutral. -/
theorem neutral_plain (t : Str) (h : ∀ c ∈ t, c ≠ dquote ∧ c ≠ lbrace ∧ c ≠ rbrace) :
    neutral t := by
  induction t with
  | nil => exact neutral_nil
  | cons c rest ih =>
    intro d k
    obtain ⟨h1, h2, h3⟩ := h c (List.mem_cons_self _ _)
    have hstep : Scan.step (some ⟨.code, d, k⟩) c = some ⟨.code, d, k⟩ := by
      simp [Scan.step, h1, h2, h3]
    simp only [scan, List.foldl_cons, hstep]
    exact ih (fun c2 hc2 => h c2 (List.mem_cons_of_mem _ hc2)) d k

theorem neutral_indent (n : Nat) : neutral (indent n) := by
  refine neutral_plain _ (fun c hc => ?_)
  have := List.eq_of_mem_replicate hc
  rw [this]
  decide

/-- An identifier character is neither a double quote nor a brace. -/
theorem isIdentChar_plain (c : Char) (h : isIdentChar c = true) :
    c ≠ dquote ∧ c ≠ lbrace ∧ c ≠ rbrace := by
  refine ⟨?_, ?_, ?_⟩ <;> (intro hc; rw [hc] at h; revert h; decide)

/-- Inside a quoted identifier the escaped text of an identifier keeps the reader inside. -/
theorem scan_escaped (id : Str) (l : Lex) (hl : l = .str ∨ l = .esc) (d k : Nat) :
    scan (some ⟨l, d, k⟩)
        (id.flatMap (fun c => if c = dquote then [backslash, dquote] else [c])) =
      some ⟨lex_after l id, d, k⟩ := by
  induction id generalizing l with
  | nil => rfl
  | cons c rest ih =>
    rw [List.flatMap_cons, scan_append, lex_after]
    have hstep : scan (some ⟨l, d, k⟩) (if c = dquote then [backslash, dquote] else [c]) =
        some ⟨if c = backslash then .esc else .str, d, k⟩ := by
      have hbd : backslash ≠ dquote := by decide
      by_cases hc : c = dquote
      · have hcb : ¬ c = backslash := by rw [hc]; decide
        rcases hl with hl | hl <;> subst hl <;>
          simp [scan, Scan.step, hc, hcb, hbd, hbd.symm]
      · by_cases hb : c = backslash
        · rcases hl with hl | hl <;> subst hl <;> simp [scan, Scan.step, hc, hb, hbd]
        · rcases hl with hl | hl <;> subst hl <;> simp [scan, Scan.step, hc, hb]
    rw [hstep]
    refine ih _ ?_
    by_cases hb : c = backslash
    · right; simp [hb]
    · left; simp [hb]

theorem lex_after_safe (id : Str) (l : Lex) (hne : id ≠ []) (hs : safe_id id = true) :
    lex_after l id = .str := by
  induction id generalizing l with
  | nil => exact absurd rfl hne
  | cons c rest ih =>
    rw [lex_after]
    cases rest with
    | nil =>
      have hc : c ≠ backslash := by
        intro h
        rw [h] at hs
        revert hs
        decide
      simp [lex_after, hc]
    | cons c2 rest2 =>
      refine ih _ (by simp) ?_
      simpa [safe_id, List.getLast?_cons_cons] using hs

/-- The quoted form of an identifier that does not end in a backslash is neutral. -/
theorem neutral_quoted (id : Str) (hs : safe_id id = true) : neutral (quoted id) := by
  intro d k
  have h1 : scan (some ⟨.code, d, k⟩) [dquote] = some ⟨.str, d, k⟩ := by
    simp [scan, Scan.step]
  have h2 : lex_after .str id = .str := by
    cases id with
    | nil => rfl
    | cons c rest => exact lex_after_safe _ _ (by simp) hs
  have h3 : scan (some ⟨.str, d, k⟩) [dquote] = some ⟨.code, d, k⟩ := by
    simp [scan, Scan.step]
  rw [quoted, scan_append, scan_append, h1, scan_escaped id .str (Or.inl rfl), h2, h3]

/-- The escaped form of an identifier that does not end in a backslash is neutral. -/
theorem neutral_escape_id (id : Str) (hs : safe_id id = true) : neutral (escape_id id) := by
  by_cases hq : id = [] ∨ need_escape id = true
  · rw [escape_id_eq_quoted id hq]
    exact neutral_quoted id hs
  · have h1 : id ≠ [] := fun hh => hq (Or.inl hh)
    have h2 : need_escape id = false := by
      cases hn : need_escape id with
      | false => rfl
      | true => exact absurd (Or.inr hn) hq
    rw [escape_id_eq_self id h1 h2]
    exact neutral_plain id
      (fun c hc => isIdentChar_plain c ((need_escape_eq_false id).mp h2 c hc))

theorem neutral_format_attrs_loop (attrs : AttrMap) (hs : safe_attrs attrs = true) (oss : Str)
    (first : Bool) (ho : neutral oss) : neutral (format_attrs_loop oss first attrs) := by
  induction attrs generalizing oss first with
  | nil => exact ho
  | cons kv rest ih =>
    simp only [safe_attrs, List.all_cons, Bool.and_eq_true] at hs
    rw [format_attrs_loop]
    refine ih (by simpa [safe_attrs] using hs.2) _ false ?_
    have hk := neutral_escape_id kv.1 hs.1.1
    have hv := neutral_escape_id kv.2 hs.1.2
    have hsep : neutral ", ".toList := neutral_plain _ (by decide)
    have heq : neutral "=".toList := neutral_plain _ (by decide)
    cases first
    · exact neutral_append _ _ (neutral_append _ _ (neutral_append _ _
        (neutral_append _ _ ho hsep) hk) heq) hv
    · exact neutral_append _ _ (neutral_append _ _ (neutral_append _ _ ho hk) heq) hv

theorem neutral_format_attrs (attrs : AttrMap) (hs : safe_attrs attrs = true) :
    neutral (format_attrs attrs) :=
  neutral_format_attrs_loop attrs hs [] true neutral_nil

theorem neutral_attr_suffix (attrs : AttrMap) (hs : safe_attrs attrs = true) :
    neutral (attr_suffix attrs) := by
  unfold attr_suffix
  split
  · exact neutral_append _ _ (neutral_append _ _ (neutral_plain _ (by decide))
      (neutral_format_attrs attrs hs)) (neutral_plain _ (by decide))
  · exact neutral_nil

theorem neutral_attr_block (n : Nat) (kw : Str) (attrs : AttrMap) (hk : neutral kw)
    (hs : safe_attrs attrs = true) : neutral (attr_block (indent n) kw attrs) := by
  unfold attr_block
  split
  · exact neutral_append _ _ (neutral_append _ _ (neutral_append _ _ (neutral_append _ _
      (neutral_append _ _ (neutral_indent n) (neutral_plain _ (by decide))) hk)
      (neutral_plain _ (by decide))) (neutral_format_attrs attrs hs))
      (neutral_plain _ (by decide))
  · exact neutral_nil

theorem scan_open (d k : Nat) :
    scan (some ⟨.code, d, k⟩) " \x7b\n".toList = some ⟨.code, d + 1, k⟩ := by
  simp [scan, Scan.step, dquote, lbrace, rbrace]

theorem scan_close (d k : Nat) :
    scan (some ⟨.code, d + 1, k⟩) "\x7d\n".toList =
      some ⟨.code, d, if d = 0 then k + 1 else k⟩ := by
  simp [scan, Scan.step, dquote, lbrace, rbrace]

theorem safe_id_cluster (name : Str) (hs : safe_id name = true) :
    safe_id ("cluster_".toList ++ name) = true := by
  cases name with
  | nil => decide
  | cons c rest =>
    simp only [safe_id] at hs ⊢
    rw [List.getLast?_append_of_ne_nil _ (by simp)]
    exact hs

/-- The header of a nested graph opens one brace. -/
theorem scan_header_nested (st dr : Bool) (name : Str) (hs : safe_id name = true)
    (n d k : Nat) :
    scan (some ⟨.code, d, k⟩) (header st dr name (n + 1)) = some ⟨.code, d + 1, k⟩ := by
  have h1 : neutral (indent (n + 1) ++ "subgraph ".toList ++
      escape_id ("cluster_".toList ++ name)) :=
    neutral_append _ _ (neutral_append _ _ (neutral_indent _) (neutral_plain _ (by decide)))
      (neutral_escape_id _ (safe_id_cluster name hs))
  simp only [header, Nat.succ_ne_zero, if_false]
  rw [scan_append, h1, scan_open]

/-- The header of a top-level graph opens one brace. -/
theorem scan_header_top (st dr : Bool) (name : Str) (hs : safe_id name = true) (d k : Nat) :
    scan (some ⟨.code, d, k⟩) (header st dr name 0) = some ⟨.code, d + 1, k⟩ := by
  have h1 : neutral ((if st then "strict ".toList else []) ++
      (if dr then "digraph ".toList else "graph ".toList) ++ escape_id name) := by
    refine neutral_append _ _ (neutral_append _ _ ?_ ?_) (neutral_escape_id _ hs)
    · cases st
      · exact neutral_nil
      · exact neutral_plain _ (by decide)
    · cases dr <;> exact neutral_plain _ (by decide)
  simp only [header, if_true]
  rw [scan_append, h1, scan_open]

mutual
/-- Inside a block the text of a safe statement is neutral. -/
theorem Statement.neutral_line (s : Statement) (hs : s.safe = true) (o : BaseGraph) (n : Nat) :
    neutral_inside (s.to_string o (n + 1)) := by
  cases s with
  | RawLine raw => simp [Statement.safe] at hs
  | Node nm a =>
    simp only [Statement.safe, Bool.and_eq_true] at hs
    simp only [Statement.to_string]
    exact neutral_inside_of_neutral _ (neutral_append _ _ (neutral_append _ _
      (neutral_append _ _ (neutral_indent _) (neutral_escape_id _ hs.1))
      (neutral_attr_suffix _ hs.2)) (neutral_plain _ (by decide)))
  | Edge t h a =>
    simp only [Statement.safe, Bool.and_eq_true] at hs
    simp only [Statement.to_string]
    have hop : neutral (edge_op o.directed_) := by
      unfold edge_op
      split <;> exact neutral_plain _ (by decide)
    have hsp : neutral " ".toList := neutral_plain _ (by decide)
    exact neutral_inside_of_neutral _ (neutral_append _ _ (neutral_append _ _
      (neutral_append _ _ (neutral_append _ _ (neutral_append _ _ (neutral_append _ _
      (neutral_append _ _ (neutral_indent _) (neutral_escape_id _ hs.1.1)) hsp) hop) hsp)
      (neutral_escape_id _ hs.1.2)) (neutral_attr_suffix _ hs.2)) (neutral_plain _ (by decide)))
  | Subgraph g =>
    simp only [Statement.safe] at hs
    simp only [Statement.to_string]
    exact BaseGraph.neutral_text g hs n
/-- Inside a block the text of a safe nested graph is neutral. -/
theorem BaseGraph.neutral_text (g : BaseGraph) (hs : g.safe = true) (n : Nat) :
    neutral_inside (g.to_string (n + 1)) := by
  cases g with
  | mk nm st dr c ga na ea l =>
    simp only [BaseGraph.safe, Bool.and_eq_true] at hs
    obtain ⟨⟨⟨⟨h1, h2⟩, h3⟩, h4⟩, h5⟩ := hs
    have hl := statements_neutral_text l h5 (BaseGraph.mk nm st dr c ga na ea l) (n + 1)
    intro d k
    have hc : comment_line c (n + 1) = [] := by simp [comment_line]
    simp only [BaseGraph.to_string, hc, List.nil_append]
    rw [scan_append, scan_append, scan_append, scan_append, scan_append, scan_append,
      scan_header_nested st dr nm h1 n (d + 1) k,
      neutral_attr_block (n + 1) _ ga (neutral_plain _ (by decide)) h2,
      neutral_attr_block (n + 1) _ na (neutral_plain _ (by decide)) h3,
      neutral_attr_block (n + 1) _ ea (neutral_plain _ (by decide)) h4,
      hl (d + 1) k, neutral_indent, scan_close]
    simp
/-- Inside a block the texts of safe statements are neutral. -/
theorem statements_neutral_text (l : List Statement) (hs : safe_statements l = true)
    (o : BaseGraph) (n : Nat) : neutral_inside (statements_to_string l o (n + 1)) := by
  cases l with
  | nil => exact fun _ _ => rfl
  | cons s rest =>
    simp only [safe_statements, Bool.and_eq_true] at hs
    simp only [statements_to_string]
    exact neutral_inside_append _ _ (Statement.neutral_line s hs.1 o n)
      (statements_neutral_text rest hs.2 o n)
end

theorem dropWhile_newline (a rest : Str) (ha : newline ∉ a) :
    (a ++ newline :: rest).dropWhile (fun c => c != newline) = newline :: rest := by
  induction a with
  | nil => simp [List.dropWhile]
  | cons x xs ih =>
    have hx : x ≠ newline := fun h => ha (by simp [h])
    have hxs : newline ∉ xs := fun h => ha (List.mem_cons_of_mem _ h)
    have hb : (x != newline) = true := by simp [hx]
    rw [List.cons_append, List.dropWhile_cons, hb, if_pos rfl]
    exact ih hxs

/-- The text of a graph after its comment line, for a comment without a newline. -/
theorem strip_comment_to_string (c doc : Str) (hc : newline ∉ c)
    (hd : "// ".toList.isPrefixOf doc = false) :
    strip_comment (comment_line c 0 ++ doc) = doc := by
  cases c with
  | nil =>
    have h0 : comment_line [] 0 = [] := rfl
    rw [h0, List.nil_append, strip_comment, hd]
    rfl
  | cons x xs =>
    have h1 : comment_line (x :: xs) 0 ++ doc =
        ("// ".toList ++ (x :: xs)) ++ newline :: doc := by
      simp [comment_line, newline]
    have h2 : "// ".toList.isPrefixOf (("// ".toList ++ (x :: xs)) ++ newline :: doc) = true := by
      simp [List.isPrefixOf]
    have h3 : newline ∉ "// ".toList ++ (x :: xs) := by
      intro h
      rcases List.mem_append.mp h with h | h
      · revert h; decide
      · exact hc h
    rw [h1, strip_comment, h2, if_pos rfl, dropWhile_newline _ _ h3]
    rfl

theorem header_top_first (st dr : Bool) (name rest : Str) :
    "// ".toList.isPrefixOf (header st dr name 0 ++ rest) = false ∧
    ("graph ".toList.isPrefixOf (header st dr name 0 ++ rest) ∨
      "digraph ".toList.isPrefixOf (header st dr name 0 ++ rest) ∨
      "strict graph ".toList.isPrefixOf (header st dr name 0 ++ rest) ∨
      "strict digraph ".toList.isPrefixOf (header st dr name 0 ++ rest)) := by
  cases st <;> cases dr <;> simp [header, List.isPrefixOf]

/-- The text of a safe graph at the top level, without its comment line, takes a reader from
    the start to the end of one top-level block. -/
theorem scan_document (nm : Str) (st dr : Bool) (c : Str) (ga na ea : AttrMap)
    (l : List Statement) (hs : (BaseGraph.mk nm st dr c ga na ea l).safe = true) :
    scan (some ⟨.code, 0, 0⟩)
      (header st dr nm 0 ++ (attr_block (indent 0) "graph".toList ga ++
        attr_block (indent 0) "node".toList na ++ attr_block (indent 0) "edge".toList ea ++
        statements_to_string l (BaseGraph.mk nm st dr c ga na ea l) (0 + 1) ++
        indent 0 ++ "\x7d\n".toList)) = some ⟨.code, 0, 1⟩ := by
  simp only [BaseGraph.safe, Bool.and_eq_true] at hs
  obtain ⟨⟨⟨⟨h1, h2⟩, h3⟩, h4⟩, h5⟩ := hs
  have hl := statements_neutral_text l h5 (BaseGraph.mk nm st dr c ga na ea l) 0
  rw [scan_append, scan_append, scan_append, scan_append, scan_append, scan_append,
    scan_header_top st dr nm h1 0 0,
    neutral_attr_block 0 _ ga (neutral_plain _ (by decide)) h2,
    neutral_attr_block 0 _ na (neutral_plain _ (by decide)) h3,
    neutral_attr_block 0 _ ea (neutral_plain _ (by decide)) h4,
    hl 0 0, neutral_indent, scan_close]
  rfl

/-- The failing inputs of C12. A comment with a newline puts its second line, here a closing
    brace, into the document before the header: the brace closes nothing. A node name that is
    one backslash is written with its closing double quote after the backslash: the quoted
    identifier is not closed when the text ends. A graph named `graph` is written without
    quotes: the top level has two `graph` keywords. -/
theorem ill_formed_documents :
    (((Graph "G".toList false).set_comment [newline, rbrace]).to_string 0 =
        "// \n\x7d\ngraph G \x7b\n\x7d\n".toList ∧
      scan (some ⟨.code, 0, 0⟩)
        (strip_comment (((Graph "G".toList false).set_comment [newline, rbrace]).to_string 0)) =
        none ∧
      ¬ balanced (((Graph "G".toList false).set_comment [newline, rbrace]).to_string 0)) ∧
    (((Graph "G".toList false).node [backslash] [] []).to_string 0 =
        "graph G \x7b\n    \"\\\";\n\x7d\n".toList ∧
      scan (some ⟨.code, 0, 0⟩)
        (strip_comment (((Graph "G".toList false).node [backslash] [] []).to_string 0)) =
        some ⟨.str, 1, 0⟩ ∧
      ¬ balanced (((Graph "G".toList false).node [backslash] [] []).to_string 0)) ∧
    (Graph "graph".toList false).to_string 0 = "graph graph \x7b\n\x7d\n".toList ∧
    keyword_count ((Graph "graph".toList false).to_string 0) = 2 := by
  refine ⟨⟨by decide, by decide, fun h => ?_⟩, ⟨by decide, by decide, fun h => ?_⟩,
    by decide, by decide⟩
  · have h2 := h.1
    revert h2
    decide
  · have h2 := h.1
    revert h2
    decide

/-- For a graph built by the member functions whose comment has no newline and none of whose
    identifiers ends in a backslash, every quoted identifier that is opened in the text is
    closed, and outside quoted identifiers the braces are balanced, the one top-level block
    being closed by the closing brace that ends the text. -/
theorem balanced_document (g : BaseGraph) (hs : g.safe = true) (hc : newline ∉ g.comment_) :
    balanced (g.to_string 0) := by
  cases g with
  | mk nm st dr c ga na ea l =>
    simp only [BaseGraph.comment_] at hc
    have hf := header_top_first st dr nm
      (attr_block (indent 0) "graph".toList ga ++ attr_block (indent 0) "node".toList na ++
        attr_block (indent 0) "edge".toList ea ++
        statements_to_string l (BaseGraph.mk nm st dr c ga na ea l) (0 + 1) ++
        indent 0 ++ "\x7d\n".toList)
    have ht : (BaseGraph.mk nm st dr c ga na ea l).to_string 0 =
        comment_line c 0 ++ (header st dr nm 0 ++
          (attr_block (indent 0) "graph".toList ga ++ attr_block (indent 0) "node".toList na ++
          attr_block (indent 0) "edge".toList ea ++
          statements_to_string l (BaseGraph.mk nm st dr c ga na ea l) (0 + 1) ++
          indent 0 ++ "\x7d\n".toList)) := by
      simp [BaseGraph.to_string, List.append_assoc]
    unfold balanced
    rw [ht, strip_comment_to_string c _ hc hf.1]
    refine ⟨scan_document nm st dr c ga na ea l hs, ?_⟩
    rw [List.isSuffixOf_iff_suffix]
    exact ⟨header st dr nm 0 ++
      (attr_block (indent 0) "graph".toList ga ++ attr_block (indent 0) "node".toList na ++
        attr_block (indent 0) "edge".toList ea ++
        statements_to_string l (BaseGraph.mk nm st dr c ga na ea l) (0 + 1) ++ indent 0),
      by simp [List.append_assoc]⟩

set_option maxRecDepth 10000 in
/-- A strict graph with a comment, a nested directed graph, and identifiers that hold braces,
    double quotes and backslashes: braces and quoted identifiers are in order, and the top
    level has one keyword. -/
theorem balanced_document_example :
    balanced (((((Graph "G".toList true).set_comment "a \x7d b".toList).set_node_attr
      "la\\bel".toList "\x7b".toList).subgraph
        ((DiGraph "s\"".toList true).edge "a".toList "b \x7d".toList
          [("k\"".toList, "v".toList)])).to_string 0) ∧
    keyword_count (((((Graph "G".toList true).set_comment "a \x7d b".toList).set_node_attr
      "la\\bel".toList "\x7b".toList).subgraph
        ((DiGraph "s\"".toList true).edge "a".toList "b \x7d".toList
          [("k\"".toList, "v".toList)])).to_string 0) = 1 :=
  ⟨balanced_document _ (by decide) (by decide), by decide⟩

/-! ### Process executor: the write of standard input before any read -/

namespace Exec

/-- Every state of a schedule is reached. -/
theorem reachable_run (capacity chunk : Nat) (s0 : State) (schedule : List Bool) (s : State)
    (hs : Reachable capacity chunk s0 s) :
    Reachable capacity chunk s0 (run capacity chunk schedule s) := by
  induction schedule generalizing s with
  | nil => exact hs
  | cons b rest ih =>
    cases b with
    | true =>
      rw [run]
      cases hp : parent_step capacity s with
      | none => exact ih s hs
      | some t => exact ih t (Reachable.parent s t hs hp)
    | false =>
      rw [run]
      cases hc : child_step capacity chunk s with
      | none => exact ih s hs
      | some t => exact ih t (Reachable.child s t hs hc)

/-- While the parent is in its `write`, the bytes of the payload are those not yet written and
    those held by the standard input pipe, the child and the standard output pipe. -/
theorem writing_invariant (capacity chunk payload : Nat) (s : State)
    (hr : Reachable capacity chunk (init payload) s) (h : 2 * capacity + chunk < payload) :
    ∃ remaining : Nat, s.parent = .writing remaining ∧
      remaining + s.stdin_pipe + s.holding + s.stdout_pipe = payload ∧
      s.stdin_pipe ≤ capacity ∧ s.stdout_pipe ≤ capacity ∧ s.holding ≤ chunk ∧
      s.exited = false ∧ s.stdin_open = true := by
  induction hr with
  | start => exact ⟨payload, rfl, by simp [init], by simp [init], by simp [init],
      by simp [init], rfl, rfl⟩
  | parent s t _ hstep ih =>
    obtain ⟨rem, h1, h2, h3, h4, h5, h6, h7⟩ := ih
    have hpos : rem ≠ 0 := by omega
    simp only [parent_step, h1, hpos, if_false] at hstep
    by_cases hlt : s.stdin_pipe < capacity
    · simp only [hlt, if_true, Option.some.injEq] at hstep
      subst hstep
      refine ⟨_, rfl, ?_, ?_, h4, h5, h6, h7⟩
      · simp only
        omega
      · simp only
        omega
    · simp only [hlt, if_false] at hstep
      cases hstep
  | child s t _ hstep ih =>
    obtain ⟨rem, h1, h2, h3, h4, h5, h6, h7⟩ := ih
    simp only [child_step, h6, Bool.false_eq_true, if_false] at hstep
    by_cases hh : 0 < s.holding
    · simp only [hh, if_true] at hstep
      by_cases hlt : s.stdout_pipe < capacity
      · simp only [hlt, if_true, Option.some.injEq] at hstep
        subst hstep
        refine ⟨rem, h1, ?_, h3, ?_, ?_, rfl, h7⟩
        · simp only
          omega
        · simp only
          omega
        · simp only
          omega
      · simp only [hlt, if_false] at hstep
        cases hstep
    · simp only [hh, if_false] at hstep
      by_cases hin : 0 < s.stdin_pipe
      · simp only [hin, if_true, Option.some.injEq] at hstep
        subst hstep
        refine ⟨rem, h1, ?_, ?_, h4, ?_, rfl, h7⟩
        · simp only
          omega
        · simp only
          omega
        · simp only
          omega
      · simp only [hin, if_false, h7, if_true] at hstep
        cases hstep

/-- A payload larger than two pipes and one read of the child: the parent never leaves its
    `write`, so the call does not return, whatever the order of the steps. -/
theorem never_returns (capacity chunk payload : Nat) (s : State)
    (hr : Reachable capacity chunk (init payload) s) (h : 2 * capacity + chunk < payload) :
    s.parent ≠ .returned := by
  obtain ⟨rem, h1, _⟩ := writing_invariant capacity chunk payload s hr h
  rw [h1]
  intro h2
  cases h2

end Exec

/-- The failing input of C17: the command `cat` with 200000 bytes of standard input, pipes of
    65536 bytes. After six steps the parent is blocked in its `write` on the full standard input
    pipe and the child in its write on the full standard output pipe, which the parent has not
    started to read; and in no order of steps does the call return. -/
theorem run_command_sink_deadlock :
    Exec.run 65536 65536 [true, false, false, true, false, true] (Exec.init 200000) =
      ⟨.writing 3392, 65536, true, 65536, 0, 65536, false⟩ ∧
    Exec.deadlocked 65536 65536
      (Exec.run 65536 65536 [true, false, false, true, false, true] (Exec.init 200000)) ∧
    ¬ ∃ s : Exec.State, Exec.Reachable 65536 65536 (Exec.init 200000) s ∧
      s.parent = .returned := by
  refine ⟨by decide, ?_, ?_⟩
  · unfold Exec.deadlocked
    decide
  · rintro ⟨s, hr, hp⟩
    exact Exec.never_returns 65536 65536 200000 s hr (by decide) hp

/-- A payload that fits into the pipe: the same parent and child run to the return of the
    call. -/
theorem run_command_sink_small_payload :
    (Exec.run 65536 65536
      [true, false, false, true, false, true, true, true, true] (Exec.init 5)).parent =
      .returned := by
  decide

/-! ### Attribute maps: the setters -/

/-- After `m[key] = value` the map has the entry. -/
theorem AttrMap.mem_set_self (m : AttrMap) (key value : Str) : (key, value) ∈ m.set key value := by
  induction m with
  | nil => simp [AttrMap.set]
  | cons kv rest ih =>
    obtain ⟨k, v⟩ := kv
    simp only [AttrMap.set]
    cases h1 : str_lt key k with
    | true => simp
    | false =>
      cases h2 : str_lt k key with
      | true => simp [ih]
      | false =>
        have hk : key = k := str_lt_total _ _ h1 h2
        simp [hk]

theorem intercalate_mem (sep x : Str) (l : List Str) (h : x ∈ l) :
    ∃ a b : Str, List.intercalate sep l = a ++ x ++ b := by
  induction l with
  | nil => cases h
  | cons y ys ih =>
    have hi : List.intercalate sep (y :: ys) = y ++ ys.flatMap (fun z => sep ++ z) := by
      clear ih h
      induction ys generalizing y with
      | nil => simp [List.intercalate]
      | cons z zs ih2 =>
        have := ih2 z
        simp only [List.intercalate, List.intersperse, List.flatten_cons,
          List.flatMap_cons] at this ⊢
        rw [this]
        simp
    rcases List.mem_cons.mp h with h1 | h1
    · exact ⟨[], ys.flatMap (fun z => sep ++ z), by rw [hi, h1]; simp⟩
    · obtain ⟨a, b, hab⟩ := ih h1
      cases ys with
      | nil => cases h1
      | cons z zs =>
        refine ⟨y ++ sep ++ a, b, ?_⟩
        have hi2 : List.intercalate sep (y :: z :: zs) =
            y ++ sep ++ List.intercalate sep (z :: zs) := by
          simp [List.intercalate, List.intersperse, List.append_assoc]
        rw [hi2, hab]
        simp [List.append_assoc]

/-- The text of a map has the text of an entry just assigned. -/
theorem format_attrs_set (m : AttrMap) (key value : Str) :
    ∃ a b : Str, format_attrs (m.set key value) =
      a ++ (escape_id key ++ "=".toList ++ escape_id value) ++ b := by
  rw [format_attrs_eq, attrs_text]
  exact intercalate_mem _ _ _
    (List.mem_map.mpr ⟨(key, value), AttrMap.mem_set_self m key value, rfl⟩)

/-- The text of a graph: the opening part, the three default-attribute blocks, the statements
    and the closing line. -/
theorem BaseGraph.to_string_blocks (nm : Str) (st d : Bool) (c : Str) (ga na ea : AttrMap)
    (l : List Statement) (o : BaseGraph) (ho : o.directed_ = d) (n : Nat) :
    (BaseGraph.mk nm st d c ga na ea l).to_string n =
      comment_line c n ++ header st d nm n ++ block_text n "graph".toList ga ++
        block_text n "node".toList na ++ block_text n "edge".toList ea ++
        l.flatMap (fun s => s.to_string o (n + 1)) ++ (indent n ++ "\x7d\n".toList) := by
  simp only [BaseGraph.to_string]
  rw [statements_to_string_owner l (BaseGraph.mk nm st d c ga na ea l) o (by rw [ho]; rfl)]
  simp [statements_to_string_eq_flatMap, attr_block_eq]

/-- C14: `set_graph_attr`, `set_node_attr` and `set_edge_attr` assign the value to the key in
    their map and change nothing else (an upsert, the last value wins, the keys stay
    ascending), and the block of the map in the text is that of the map after the assignment;
    `format_attrs` writes `escape_id(key)=escape_id(value)` for each entry in the order of the
    map, joined by a comma and a space; so setting two different keys in either order gives the
    same text, and setting one key twice gives the text of the second value alone. -/
theorem attrs_order_independent (g : BaseGraph) (m : AttrMap) (k1 v1 k2 v2 : Str) (n : Nat) :
    format_attrs m = List.intercalate ", ".toList
      (m.map (fun kv => escape_id kv.1 ++ "=".toList ++ escape_id kv.2)) ∧
    (m.sorted → (m.set k1 v1).sorted) ∧
    (g.set_graph_attr k1 v1 = BaseGraph.mk g.graph_name_ g.strict_ g.directed_ g.comment_
        (g.graph_attr_.set k1 v1) g.node_attr_ g.edge_attr_ g.statements_ ∧
      g.set_node_attr k1 v1 = BaseGraph.mk g.graph_name_ g.strict_ g.directed_ g.comment_
        g.graph_attr_ (g.node_attr_.set k1 v1) g.edge_attr_ g.statements_ ∧
      g.set_edge_attr k1 v1 = BaseGraph.mk g.graph_name_ g.strict_ g.directed_ g.comment_
        g.graph_attr_ g.node_attr_ (g.edge_attr_.set k1 v1) g.statements_) ∧
    ((m.set k1 v1).find k1 = some v1 ∧
      (∀ k : Str, k ≠ k1 → (m.set k1 v1).find k = m.find k) ∧
      ((m.set k1 v1).set k1 v2).find k1 = some v2 ∧
      ∃ a b : Str, format_attrs (m.set k1 v1) =
        a ++ (escape_id k1 ++ "=".toList ++ escape_id v1) ++ b) ∧
    (∃ opening : Str,
      (BaseGraph.mk g.graph_name_ g.strict_ g.directed_ g.comment_ [] [] [] []).to_string n =
        opening ++ (indent n ++ "\x7d\n".toList) ∧
      (g.set_graph_attr k1 v1).to_string n =
        opening ++ block_text n "graph".toList (g.graph_attr_.set k1 v1) ++
          block_text n "node".toList g.node_attr_ ++ block_text n "edge".toList g.edge_attr_ ++
          g.statements_.flatMap (fun s => s.to_string g (n + 1)) ++
          (indent n ++ "\x7d\n".toList) ∧
      (g.set_node_attr k1 v1).to_string n =
        opening ++ block_text n "graph".toList g.graph_attr_ ++
          block_text n "node".toList (g.node_attr_.set k1 v1) ++
          block_text n "edge".toList g.edge_attr_ ++
          g.statements_.flatMap (fun s => s.to_string g (n + 1)) ++
          (indent n ++ "\x7d\n".toList) ∧
      (g.set_edge_attr k1 v1).to_string n =
        opening ++ block_text n "graph".toList g.graph_attr_ ++
          block_text n "node".toList g.node_attr_ ++
          block_text n "edge".toList (g.edge_attr_.set k1 v1) ++
          g.statements_.flatMap (fun s => s.to_string g (n + 1)) ++
          (indent n ++ "\x7d\n".toList)) ∧
    (k1 ≠ k2 →
      ((g.set_graph_attr k1 v1).set_graph_attr k2 v2).to_string n =
        ((g.set_graph_attr k2 v2).set_graph_attr k1 v1).to_string n ∧
      ((g.set_node_attr k1 v1).set_node_attr k2 v2).to_string n =
        ((g.set_node_attr k2 v2).set_node_attr k1 v1).to_string n ∧
      ((g.set_edge_attr k1 v1).set_edge_attr k2 v2).to_string n =
        ((g.set_edge_attr k2 v2).set_edge_attr k1 v1).to_string n) ∧
    ((g.set_graph_attr k1 v1).set_graph_attr k1 v2).to_string n =
      (g.set_graph_attr k1 v2).to_string n ∧
    ((g.set_node_attr k1 v1).set_node_attr k1 v2).to_string n =
      (g.set_node_attr k1 v2).to_string n ∧
    ((g.set_edge_attr k1 v1).set_edge_attr k1 v2).to_string n =
      (g.set_edge_attr k1 v2).to_string n := by
  refine ⟨format_attrs_eq m, AttrMap.sorted_set m k1 v1, ?_, ?_, ?_, fun hne => ?_, ?_, ?_, ?_⟩
  · cases g
    exact ⟨rfl, rfl, rfl⟩
  · refine ⟨AttrMap.find_set_self m k1 v1, fun k hk => AttrMap.find_set_other m k1 v1 k hk, ?_,
      format_attrs_set m k1 v1⟩
    rw [AttrMap.set_set]
    exact AttrMap.find_set_self m k1 v2
  · cases g with
    | mk nm st d c ga na ea l =>
      refine ⟨comment_line c n ++ header st d nm n, ?_, ?_, ?_, ?_⟩
      · rw [show BaseGraph.mk (BaseGraph.mk nm st d c ga na ea l).graph_name_
            (BaseGraph.mk nm st d c ga na ea l).strict_
            (BaseGraph.mk nm st d c ga na ea l).directed_
            (BaseGraph.mk nm st d c ga na ea l).comment_ [] [] [] [] =
            BaseGraph.mk nm st d c [] [] [] [] from rfl,
          BaseGraph.to_string_blocks nm st d c [] [] [] [] (BaseGraph.mk nm st d c ga na ea l)
            rfl n]
        simp [block_text]
      · exact BaseGraph.to_string_blocks nm st d c _ na ea l
          (BaseGraph.mk nm st d c ga na ea l) rfl n
      · exact BaseGraph.to_string_blocks nm st d c ga _ ea l
          (BaseGraph.mk nm st d c ga na ea l) rfl n
      · exact BaseGraph.to_string_blocks nm st d c ga na _ l
          (BaseGraph.mk nm st d c ga na ea l) rfl n
  · cases g with
    | mk nm st d c ga na ea l =>
      simp only [BaseGraph.set_graph_attr, BaseGraph.set_node_attr, BaseGraph.set_edge_attr]
      rw [AttrMap.set_comm ga k1 v1 k2 v2 hne, AttrMap.set_comm na k1 v1 k2 v2 hne,
        AttrMap.set_comm ea k1 v1 k2 v2 hne]
      exact ⟨rfl, rfl, rfl⟩
  · cases g with
    | mk nm st d c ga na ea l =>
      simp only [BaseGraph.set_graph_attr, AttrMap.set_set]
  · cases g with
    | mk nm st d c ga na ea l =>
      simp only [BaseGraph.set_node_attr, AttrMap.set_set]
  · cases g with
    | mk nm st d c ga na ea l =>
      simp only [BaseGraph.set_edge_attr, AttrMap.set_set]

/-- Witness of C14: `b` then `a` on each of the three maps gives the text of `a` then `b`. -/
theorem attrs_order_independent_witness :
    (((Graph "G".toList false).set_graph_attr "b".toList "2".toList).set_graph_attr
        "a".toList "1".toList).to_string 0 =
      "graph G \x7b\n    graph [a=1, b=2];\n\x7d\n".toList ∧
    (((Graph "G".toList false).set_node_attr "b".toList "2".toList).set_node_attr
        "a".toList "1".toList).to_string 0 =
      "graph G \x7b\n    node [a=1, b=2];\n\x7d\n".toList ∧
    (((Graph "G".toList false).set_edge_attr "b".toList "2".toList).set_edge_attr
        "a".toList "1".toList).to_string 0 =
      "graph G \x7b\n    edge [a=1, b=2];\n\x7d\n".toList ∧
    (((Graph "G".toList false).set_edge_attr "a".toList "1".toList).set_edge_attr
        "a".toList "2".toList).to_string 0 =
      "graph G \x7b\n    edge [a=2];\n\x7d\n".toList :=
  ⟨((attrs_order_independent (Graph "G".toList false) [] "b".toList "2".toList "a".toList
      "1".toList 0).2.2.2.2.2.1 (by decide)).1.trans (by decide),
    ((attrs_order_independent (Graph "G".toList false) [] "b".toList "2".toList "a".toList
      "1".toList 0).2.2.2.2.2.1 (by decide)).2.1.trans (by decide),
    ((attrs_order_independent (Graph "G".toList false) [] "b".toList "2".toList "a".toList
      "1".toList 0).2.2.2.2.2.1 (by decide)).2.2.trans (by decide),
    by decide⟩

end kgraphviz
